import Mathlib

/-!
Verification of `sciwing/utils/science_ie_data_utils.py` (class
`ScienceIEDataUtils`).

Python strings are modelled as `List Char` (`Str`).  A spaCy tokenization of a
document (`self.nlp(text)`) is modelled as a `List Token`: each token carries
its surface text, its start character offset (`token.idx`) and the spaCy flags
`token.is_space` and `token.is_sent_start`.  The spaCy collaborators the
source imports (`biluo_tags_from_offsets`, `offsets_from_biluo_tags`,
`Doc.char_span`, `Doc.sents`) are translated from spaCy 2.x (`spacy/gold.pyx`
and `spacy/tokens/doc.pyx`), the library version that still has the
`spacy.gold` module used by the source.  Python statements that can raise are
modelled with `Except Str`.  Files are modelled by their lists of lines,
without the trailing newline of each line.
-/

abbrev Str := List Char

/-- A spaCy token: surface text, start character offset (`token.idx`) and the
flags `token.is_space` and `token.is_sent_start` read by the source. -/
structure Token where
  text : Str
  idx : Nat
  is_space : Bool
  is_sent_start : Bool
deriving Repr, DecidableEq

/-- End character offset of a token, Python `token.idx + len(token)`. -/
def Token.tokEnd (t : Token) : Nat := t.idx + t.text.length

/-- One parsed annotation of a brat `.ann` line, as the dictionary built by
`_get_annotations_for_entity` (`stop` models the Python key `end`). -/
structure Annotation where
  start : Nat
  stop : Nat
  words : Str
  entity_number : Str
  tag : Str
deriving Repr, DecidableEq

/-- Python `str.split(sep)` for a one-character separator: split at every
occurrence, keeping empty pieces (so the result is never empty). -/
def splitOnChar (sep : Char) : Str → List Str
  | [] => [[]]
  | c :: rest =>
    if c = sep then [] :: splitOnChar sep rest
    else
      match splitOnChar sep rest with
      | w :: ws => (c :: w) :: ws
      | [] => [[c]]

/-- Helper for `wsSplit`: `cur` is the word read so far. -/
def wsSplitGo : Str → Str → List Str
  | cur, [] => if cur = [] then [] else [cur]
  | cur, c :: rest =>
    if c.isWhitespace then
      if cur = [] then wsSplitGo [] rest else cur :: wsSplitGo [] rest
    else wsSplitGo (cur ++ [c]) rest

/-- Python `str.split()` with no argument: split on runs of whitespace,
dropping empty pieces. -/
def wsSplit (s : Str) : List Str := wsSplitGo [] s

/-- Python `str.strip()`: drop leading and trailing whitespace. -/
def pyStrip (s : Str) : Str :=
  ((s.dropWhile Char.isWhitespace).reverse.dropWhile Char.isWhitespace).reverse

/-- Python `str.startswith(p)`. -/
def pyStartsWith (s p : Str) : Bool := p.isPrefixOf s

/-- Python `str.lower()` (ASCII case folding, which covers the tags this data
contains). -/
def pyLower (s : Str) : Str := s.map Char.toLower

/-- Python `int(s)` restricted to plain decimal-digit strings, the only
successful shape this data contains: `some` of the value on a nonempty
all-digit string, `none` modelling the `ValueError` that `int` raises
otherwise. -/
def pyInt (s : Str) : Option Nat :=
  if s ≠ [] ∧ ∀ c ∈ s, c.isDigit then
    some (s.foldl (fun acc c => 10 * acc + (c.toNat - 48)) 0)
  else none

/-- Python `str(n)` for a natural number. -/
def natToStr (n : Nat) : Str :=
  if n = 0 then ['0']
  else (Nat.digits 10 n).reverse.map (fun d => Char.ofNat (48 + d))

/-- Python `text[s:e]` for nonnegative indices. -/
def sliceText (text : Str) (s e : Nat) : Str := (text.take e).drop s

/-- Error messages standing for the Python exception of the same name. -/
def indexErrorMsg : Str := "IndexError".toList

def assertionErrorMsg : Str := "AssertionError".toList

def valueErrorMsg : Str := "ValueError".toList

def attributeErrorMsg : Str := "AttributeError".toList

/-- The three entity types, in the order the source hardcodes them. -/
def taskName : Str := "Task".toList

def processName : Str := "Process".toList

def materialName : Str := "Material".toList

/-- Lookup in a Python dict comprehension over a document keyed by
`key token`, with the token index as value: a later token with the same key
overwrites an earlier one. `i` is the index of the first token of the list. -/
def dictGetFrom (key : Token → Nat) : Nat → List Token → Nat → Option Nat
  | _, [], _ => none
  | i, t :: rest, k =>
    match dictGetFrom key (i + 1) rest k with
    | some j => some j
    | none => if key t = k then some i else none

/-- Models `starts = {token.idx: token.i for token in doc}; starts.get(k)` of
spaCy's `biluo_tags_from_offsets` (and its `ends` counterpart, and the exact
boundary lookups of `Doc.char_span`). -/
def dictGet (key : Token → Nat) (doc : List Token) (k : Nat) : Option Nat :=
  dictGetFrom key 0 doc k

/-- One pass of the entity loop of spaCy's `biluo_tags_from_offsets`: find the
token starting exactly at the span's start offset and the token ending exactly
at its end offset and, when both exist, write `U-` or `B-`/`I-`/`L-` tags over
that token index range; otherwise leave the tags unchanged. -/
def paintEntity (doc : List Token) (biluo : List Str) (ent : Nat × Nat × Str) : List Str :=
  match dictGet Token.idx doc ent.1, dictGet Token.tokEnd doc ent.2.1 with
  | some i, some j =>
    if i = j then biluo.set i ('U' :: '-' :: ent.2.2)
    else
      biluo.mapIdx (fun k t =>
        if k = i then 'B' :: '-' :: ent.2.2
        else if k = j then 'L' :: '-' :: ent.2.2
        else if i < k ∧ k < j then 'I' :: '-' :: ent.2.2
        else t)
  | _, _ => biluo

/-- spaCy 2.x `biluo_tags_from_offsets(doc, entities)`: every token starts
tagged `-`; each entity whose offsets align exactly with token boundaries
paints its token range with `B`/`I`/`L`/`U` tags; finally every token none of
whose characters lies inside any entity span becomes `O`. -/
def biluo_tags_from_offsets (doc : List Token) (entities : List (Nat × Nat × Str)) : List Str :=
  let painted := entities.foldl (paintEntity doc) (List.replicate doc.length ['-'])
  (doc.zip painted).map (fun p =>
    if (List.range p.1.text.length).all
        (fun o => !(entities.any
          (fun ent => decide (ent.1 ≤ p.1.idx + o) && decide (p.1.idx + o < ent.2.1)))) then
      ['O']
    else p.2)

/-- The tag-fixing lambda of the source (lines 189-192 and 291-296): spaCy's
`O` and `-` tags both become the entity-qualified outside tag `O-<entity>`. -/
def fixOTag (entity : Str) (t : Str) : Str :=
  if pyStartsWith t ['O'] || t == ['-'] then 'O' :: '-' :: entity else t

/-- One output line `f"{token.text} {tag} {tag} {tag}"` of the BILOU writers
(`self._conll_col_sep` is a single space). -/
def conll_line (tok : Token) (tag : Str) : Str :=
  tok.text ++ ' ' :: tag ++ ' ' :: tag ++ ' ' :: tag

/-- The `(start, end, tag)` span triples of a list of annotations, as the
loops at source lines 180-185 and 275-280 build them. -/
def annotation_spans (annotations : List Annotation) : List (Nat × Nat × Str) :=
  annotations.map (fun a => (a.start, a.stop, a.tag))

/-- The per-token tag streams shared by `_get_bilou_lines_for_entity` and
`get_sentence_wise_bilou_lines`: spaCy's BILOU tags with `O` and `-` replaced
by `O-<entity>`. -/
def entity_bilou_tags (doc : List Token) (annotations : List Annotation) (entity : Str) : List Str :=
  (biluo_tags_from_offsets doc (annotation_spans annotations)).map (fixOTag entity)

/-- `ScienceIEDataUtils._get_bilou_lines_for_entity`, with `doc` standing for
`self.nlp(text)`: tag every token, replace `O`/`-` by `O-<entity>` and emit
one line per token that is not pure whitespace. -/
def bilou_lines_for_entity (doc : List Token) (annotations : List Annotation) (entity : Str) : List Str :=
  ((doc.zip (entity_bilou_tags doc annotations entity)).filter
    (fun p => !p.1.is_space)).map (fun p => conll_line p.1 p.2)

/-- Number of sentences spaCy's `doc.sents` yields: the first sentence always
starts at token 0 and a further sentence starts at each later token whose
`is_sent_start` flag is set (`spacy/tokens/doc.pyx`). -/
def doc_sents_count : List Token → Nat
  | [] => 0
  | _ :: rest => 1 + (rest.filter (fun t => t.is_sent_start)).length

/-- One step of the sentence-marking loop of `get_sentence_wise_bilou_lines`
(source lines 307-326), with Python's list aliasing made explicit:
`sentences.append(current_sent)` appends a *reference*, so at a
sentence-initial whitespace token the flushed group stays aliased with
`current_sent` (the rebinding is skipped) and later
`current_sent.append(...)` calls mutate the flushed group too.  The state is
`(dead, aliases, current)`: the groups whose list was rebound away and can no
longer change, the number of still-live references to `current_sent` already
appended to `sentences`, and `current_sent` itself.  At a non-space
sentence-start the append plus the rebinding freeze all `aliases + 1`
references at the current value; at a whitespace sentence-start the append
adds one more live reference; at any other non-space token the line is
appended to the live list (through every live reference at once).  `p` is the
`(tag, token)` pair of `zip(tags[1:], doc[1:])`. -/
def sentence_step (acc : List (List Str) × Nat × List Str) (p : Str × Token) :
    List (List Str) × Nat × List Str :=
  if p.2.is_sent_start then
    if !p.2.is_space then
      (acc.1 ++ List.replicate (acc.2.1 + 1) acc.2.2, 0, [conll_line p.2 p.1])
    else (acc.1, acc.2.1 + 1, acc.2.2)
  else
    (acc.1, acc.2.1, if !p.2.is_space then acc.2.2 ++ [conll_line p.2 p.1] else acc.2.2)

/-- The sentence grouping of `get_sentence_wise_bilou_lines` on a nonempty
document: seed `current_sent` from `doc[0]` and `tags[0]`, fold the loop over
the rest, and materialise the final `sentences` list — the frozen groups, one
copy of the final `current_sent` per live reference, and the final
`sentences.append(current_sent)`. -/
def sentence_groups (t0 : Token) (tag0 : Str) (docRest : List Token) (tagsRest : List Str) :
    List (List Str) :=
  let current0 : List Str := if !t0.is_space then [conll_line t0 tag0] else []
  let acc := (tagsRest.zip docRest).foldl sentence_step ([], 0, current0)
  acc.1 ++ List.replicate (acc.2.1 + 1) acc.2.2

/-- `ScienceIEDataUtils.get_sentence_wise_bilou_lines` with `doc` standing for
`self.nlp(text)`.  A zero-token document raises `IndexError` at `doc[0]` (or
`tags[0]`); the final `assert len(sentences) == len(list(doc.sents))` is
modelled by an `AssertionError` result when the two counts differ. -/
def get_sentence_wise_bilou_lines (doc : List Token) (annotations : List Annotation)
    (entity_type : Str) : Except Str (List (List Str)) :=
  match doc, entity_bilou_tags doc annotations entity_type with
  | t0 :: docRest, tag0 :: tagsRest =>
    let sentences := sentence_groups t0 tag0 docRest tagsRest
    if sentences.length = doc_sents_count (t0 :: docRest) then Except.ok sentences
    else Except.error assertionErrorMsg
  | _, _ => Except.error indexErrorMsg

/-- One iteration of the `merge_files` loop: a non-blank task line and the
corresponding process and material lines must each split (on single spaces,
after stripping) into exactly four columns, else Python's tuple unpacking
raises `ValueError`; the word written comes from the last unpacking, i.e. from
the material line.  A blank task line yields a blank output line. -/
def merge_line (task_line process_line material_line : Str) : Except Str Str :=
  if pyStrip task_line ≠ [] then
    match splitOnChar ' ' (pyStrip task_line), splitOnChar ' ' (pyStrip process_line),
        splitOnChar ' ' (pyStrip material_line) with
    | [_, _, _, task_tag], [_, _, _, process_tag], [w3, _, _, material_tag] =>
      Except.ok (w3 ++ ' ' :: task_tag ++ ' ' :: process_tag ++ ' ' :: material_tag)
    | _, _, _ => Except.error valueErrorMsg
  else Except.ok []

/-- `ScienceIEDataUtils.merge_files` on file contents given as lists of lines:
`zip` stops at the shortest input. -/
def merge_files : List Str → List Str → List Str → Except Str (List Str)
  | t :: ts, p :: ps, m :: ms => do
    let line ← merge_line t p m
    let rest ← merge_files ts ps ms
    pure (line :: rest)
  | _, _, _ => Except.ok []

/-- spaCy 2.x `tags_to_entities` scan (`spacy/gold.pyx`), carried out at
absolute position `i` with `start` the position of the pending `B` tag:
`O…` clears the pending start, `-` is skipped, `I…` without a pending start
and unrecognised tags raise `ValueError`, `U…` emits a one-token entity, and
`L…` closes the pending one (with no pending start Python slices
`doc[None:i+1]`, i.e. from 0, hence `getD 0`). -/
def tags_to_entities_go : Nat → Option Nat → List Str → Except Str (List (Str × Nat × Nat))
  | _, _, [] => Except.ok []
  | i, start, tag :: rest =>
    if pyStartsWith tag ['O'] then tags_to_entities_go (i + 1) none rest
    else if tag = ['-'] then tags_to_entities_go (i + 1) start rest
    else if pyStartsWith tag ['I'] then
      match start with
      | none => Except.error valueErrorMsg
      | some s => tags_to_entities_go (i + 1) (some s) rest
    else if pyStartsWith tag ['U'] then
      (tags_to_entities_go (i + 1) start rest).map (fun l => (tag.drop 2, i, i) :: l)
    else if pyStartsWith tag ['B'] then tags_to_entities_go (i + 1) (some i) rest
    else if pyStartsWith tag ['L'] then
      (tags_to_entities_go (i + 1) none rest).map (fun l => (tag.drop 2, start.getD 0, i) :: l)
    else Except.error valueErrorMsg

/-- spaCy 2.x `tags_to_entities(tags)`. -/
def tags_to_entities (tags : List Str) : Except Str (List (Str × Nat × Nat)) :=
  tags_to_entities_go 0 none tags

/-- The character offsets of the slice `doc[start:stop]` in spaCy 2.x:
`Doc.__getitem__` on a slice calls `normalize_slice`, which *clamps*
(`start = min(length, max(start, 0))`, `stop = min(length, max(stop, start))`)
and never raises, then `Span.__cinit__` sets
`start_char = doc[start].idx if start < length else 0` and
`end_char = doc[end-1].idx + len(doc[end-1]) if end >= 1 else 0`. -/
def doc_slice_offsets (doc : List Token) (start stop : Nat) : Nat × Nat :=
  ((match doc.get? (min doc.length start) with | some t => t.idx | none => 0),
   if min doc.length (max (min doc.length start) stop) = 0 then 0
   else
     match doc.get? (min doc.length (max (min doc.length start) stop) - 1) with
     | some t => t.tokEnd | none => 0)

/-- The offset-building loop of spaCy's `offsets_from_biluo_tags`: each
token-index entity `(label, i, j)` becomes the character offsets of the span
`doc[i : j + 1]` — clamped by `normalize_slice`, so an index beyond the
document silently yields the slice's (possibly degenerate) boundary offsets
instead of raising. -/
def entity_char_offsets (doc : List Token) (ents : List (Str × Nat × Nat)) :
    List (Nat × Nat × Str) :=
  ents.map (fun ent =>
    ((doc_slice_offsets doc ent.2.1 (ent.2.2 + 1)).1,
     (doc_slice_offsets doc ent.2.1 (ent.2.2 + 1)).2, ent.1))

/-- spaCy 2.x `offsets_from_biluo_tags(doc, tags)`: only `tags_to_entities`
can raise. -/
def offsets_from_biluo_tags (doc : List Token) (tags : List Str) : Except Str (List (Nat × Nat × Str)) :=
  (tags_to_entities tags).map (entity_char_offsets doc)

/-- spaCy `Doc.char_span(s, e)`: the token span whose first token starts
exactly at `s` and whose last token ends exactly at `e`, or `None` when either
boundary hits no token boundary. -/
def char_span (doc : List Token) (s e : Nat) : Option (Nat × Nat) :=
  match dictGet Token.idx doc s, dictGet Token.tokEnd doc e with
  | some i, some j => some (i, j)
  | _, _ => none

/-- `ScienceIEDataUtils._form_ann_line`: when `doc.char_span` returns `None`
the attribute access `.text` raises (`AttributeError`); otherwise the line
`T<idx> TAB <tag_name> <start> <end> TAB <surface>` is built, the surface form
being the span's text, i.e. the slice of the original text at the
reconstructed offsets. -/
def form_ann_line (idx : Nat) (char_offset : Nat × Nat × Str) (tag_name : Str)
    (text : Str) (doc : List Token) : Except Str Str :=
  match char_span doc char_offset.1 char_offset.2.1 with
  | none => Except.error attributeErrorMsg
  | some _ =>
    Except.ok ('T' :: natToStr idx ++ '\t' :: tag_name ++ ' ' :: natToStr char_offset.1
      ++ ' ' :: natToStr char_offset.2.1 ++ '\t' :: sliceText text char_offset.1 char_offset.2.1)

/-- One line of the parsing loop of `write_ann_file_from_conll_file`: the
line is whitespace-split into `word, task_tag, process_tag, material_tag`; on
`ValueError` a three-field split falls back to `word = " "`; anything else
re-raises `ValueError`. -/
def conll_line_columns (line : Str) : Except Str (Str × Str × Str × Str) :=
  match wsSplit line with
  | [w, t, p, m] => Except.ok (w, t, p, m)
  | [t, p, m] => Except.ok ([' '], t, p, m)
  | _ => Except.error valueErrorMsg

/-- The line-parsing loop of `write_ann_file_from_conll_file`: returns the
four column lists. -/
def conll_columns : List Str → Except Str (List Str × List Str × List Str × List Str)
  | [] => Except.ok ([], [], [], [])
  | line :: rest => do
    let cols ← conll_line_columns line
    let colsRest ← conll_columns rest
    Except.ok (cols.1 :: colsRest.1, cols.2.1 :: colsRest.2.1,
      cols.2.2.1 :: colsRest.2.2.1, cols.2.2.2 :: colsRest.2.2.2)

/-- One of the three `for idx, char_offset in enumerate(...)` loops of
`write_ann_file_from_conll_file`, with the shared counter `term_idx` starting
at `base`. -/
def ann_lines_for (text : Str) (doc : List Token) (tag_name : Str) :
    Nat → List (Nat × Nat × Str) → Except Str (List Str)
  | _, [] => Except.ok []
  | base, off :: rest => do
    let line ← form_ann_line base off tag_name text doc
    let restLines ← ann_lines_for text doc tag_name (base + 1) rest
    Except.ok (line :: restLines)

/-- `ScienceIEDataUtils.write_ann_file_from_conll_file` with `doc` standing
for `self.nlp(text)` and the CoNLL file given as its list of lines; returns
the annotation lines written.  The single counter `term_idx` runs through the
Task entities, then the Process ones, then the Material ones. -/
def write_ann_file_from_conll_file (text : Str) (doc : List Token) (conll_lines : List Str) :
    Except Str (List Str) := do
  let cols ← conll_columns conll_lines
  let task_char_offsets ← offsets_from_biluo_tags doc cols.2.1
  let process_char_offsets ← offsets_from_biluo_tags doc cols.2.2.1
  let material_char_offsets ← offsets_from_biluo_tags doc cols.2.2.2
  let task_lines ← ann_lines_for text doc taskName 0 task_char_offsets
  let process_lines ← ann_lines_for text doc processName
    task_char_offsets.length process_char_offsets
  let material_lines ← ann_lines_for text doc materialName
    (task_char_offsets.length + process_char_offsets.length) material_char_offsets
  Except.ok (task_lines ++ process_lines ++ material_lines)

/-- One line of the `.ann` parsing loop of `_get_annotations_for_entity`:
`ok none` when the line is skipped (it does not start with `T`, has the wrong
tab-field count, the wrong space-field count in the middle field, or a tag
that does not match), `ok (some ann)` when an annotation is collected, and an
error when `int()` raises on a non-numeric offset field (the source converts
both offsets before comparing the tag). -/
def ann_line_step (entity : Str) (line : Str) : Except Str (Option Annotation) :=
  if pyStartsWith (pyStrip line) ['T'] ∧ (splitOnChar '\t' line).length = 3 then
    match splitOnChar '\t' line with
    | [entity_number, tag_start_end, words] =>
      if (wsSplit tag_start_end).length ≠ 3 then Except.ok none
      else
        match wsSplit tag_start_end with
        | [tag, startS, stopS] =>
          match pyInt startS with
          | none => Except.error valueErrorMsg
          | some s =>
            match pyInt stopS with
            | none => Except.error valueErrorMsg
            | some e =>
              if pyLower tag = pyLower entity then
                Except.ok (some ⟨s, e, words, entity_number, tag⟩)
              else Except.ok none
        | _ => Except.ok none
    | _ => Except.ok none
  else Except.ok none

/-- `ScienceIEDataUtils._get_annotations_for_entity` on the lines of the
`.ann` file. -/
def get_annotations_for_entity (lines : List Str) (entity : Str) : Except Str (List Annotation) :=
  match lines with
  | [] => Except.ok []
  | line :: rest => do
    let a ← ann_line_step entity line
    let restAnns ← get_annotations_for_entity rest entity
    Except.ok (match a with | some ann => ann :: restAnns | none => restAnns)

/-- The `(start, end, tag)` triple a brat annotation line carries, read the
way `_get_annotations_for_entity` reads its fields. -/
def ann_line_triple (line : Str) : Option (Nat × Nat × Str) :=
  if pyStartsWith (pyStrip line) ['T'] ∧ (splitOnChar '\t' line).length = 3 then
    match splitOnChar '\t' line with
    | [_, tag_start_end, _] =>
      match wsSplit tag_start_end with
      | [tag, startS, stopS] =>
        match pyInt startS, pyInt stopS with
        | some s, some e => some (s, e, tag)
        | _, _ => none
      | _ => none
    | _ => none
  else none

/-- Claim C6's description of the parser, stated in its own words for
comparison: a well-formed line — it starts with `T`, has three tab fields
whose middle field has three space-separated parts with decimal offsets — and
a case-insensitively matching tag yield the annotation; every other line
yields nothing. -/
def spec_ann_line (entity : Str) (line : Str) : Option Annotation :=
  match splitOnChar '\t' line with
  | [entity_number, tag_start_end, words] =>
    if pyStartsWith (pyStrip line) ['T'] then
      match wsSplit tag_start_end with
      | [tag, startS, stopS] =>
        match pyInt startS, pyInt stopS with
        | some s, some e =>
          if pyLower tag = pyLower entity then some ⟨s, e, words, entity_number, tag⟩
          else none
        | _, _ => none
      | _ => none
    else none
  | _ => none

/-- Claim C6's described result: exactly the annotations of the well-formed,
tag-matching lines. -/
def spec_annotations (lines : List Str) (entity : Str) : List Annotation :=
  lines.filterMap (spec_ann_line entity)

/-- Character-offset alignment of a span with the token boundaries of `doc`:
some token starts exactly at `s` and some not-earlier token ends exactly at
`e`. -/
def SpanAligned (doc : List Token) (s e : Nat) : Prop :=
  ∃ i : Fin doc.length, ∃ j : Fin doc.length,
    i.1 ≤ j.1 ∧ (doc.get i).idx = s ∧ (doc.get j).tokEnd = e

/-- Well-formedness of a modelled tokenization for the round-trip claims: no
whitespace inside a token, no whitespace tokens, every token nonempty, tokens
laid out left to right without overlap. -/
def WfDoc (doc : List Token) : Prop :=
  (∀ t ∈ doc, t.text ≠ [] ∧ (∀ c ∈ t.text, ¬c.isWhitespace) ∧ t.is_space = false) ∧
  List.Pairwise (fun a b => a.tokEnd ≤ b.idx) doc

/-- Well-formedness of the annotations of one entity type: canonical tag,
nonempty span, token-aligned boundaries, pairwise non-overlapping spans. -/
def WfAnns (doc : List Token) (anns : List Annotation) (entity : Str) : Prop :=
  (∀ a ∈ anns, a.tag = entity ∧ a.start < a.stop ∧ SpanAligned doc a.start a.stop) ∧
  List.Pairwise (fun a b => a = b ∨ a.stop ≤ b.start ∨ b.stop ≤ a.start) anns

/-- The token index range an entity span aligns with: the two dictionary
lookups of `paintEntity` both succeed with these indices. -/
def RangeOf (doc : List Token) (ent : Nat × Nat × Str) (i j : Nat) : Prop :=
  dictGet Token.idx doc ent.1 = some i ∧ dictGet Token.tokEnd doc ent.2.1 = some j

/-- Decidable test: position `k` lies in the token index range painted by
`ent`. -/
def coversB (doc : List Token) (ent : Nat × Nat × Str) (k : Nat) : Bool :=
  match dictGet Token.idx doc ent.1, dictGet Token.tokEnd doc ent.2.1 with
  | some i, some j => decide (k = i ∨ k = j ∨ (i < k ∧ k < j))
  | _, _ => false

/-- The merged CoNLL lines of a document whose three tag streams are given:
one `word task process material` line per token. -/
def merged_conll_lines : List Token → List Str → List Str → List Str → List Str
  | t :: ts, a :: ar, b :: br, c :: cr =>
    (t.text ++ ' ' :: a ++ ' ' :: b ++ ' ' :: c) :: merged_conll_lines ts ar br cr
  | _, _, _, _ => []

/-- The tag `paintEntity` leaves at position `k` of the token range `[i, j]`
it paints. -/
def roleTag (label : Str) (i j k : Nat) : Str :=
  if i = j then 'U' :: '-' :: label
  else if k = i then 'B' :: '-' :: label
  else if k = j then 'L' :: '-' :: label
  else 'I' :: '-' :: label

/-- Position `k` lies in the token index range that the entity span `ent`
aligns with and paints. -/
def entRangeCovers (doc : List Token) (ent : Nat × Nat × Str) (k : Nat) : Prop :=
  ∃ i j, dictGet Token.idx doc ent.1 = some i ∧ dictGet Token.tokEnd doc ent.2.1 = some j ∧
    (k = i ∨ k = j ∨ (i < k ∧ k < j))

/-- The tag the round-trip analysis predicts at token `k` for well-formed
annotations: the role within the first covering aligned span, `O-<entity>`
otherwise. -/
def tagPattern (doc : List Token) (anns : List Annotation) (entity : Str) (k : Nat) : Str :=
  match (annotation_spans anns).find? (fun ent => coversB doc ent k) with
  | some ent =>
    match dictGet Token.idx doc ent.1, dictGet Token.tokEnd doc ent.2.1 with
    | some i, some j => roleTag ent.2.2 i j k
    | _, _ => 'O' :: '-' :: entity
  | none => 'O' :: '-' :: entity

/-! ### Concrete inputs used when settling the claims -/

/-- A document whose second token is whitespace and marked sentence-initial:
`current_sent` is then flushed without being reset. -/
def cexSpaceDoc : List Token :=
  [⟨['a'], 0, false, true⟩, ⟨[' '], 1, true, true⟩, ⟨['b'], 2, false, false⟩]

/-- The sentence groups the source produces on `cexSpaceDoc`: the group
flushed at the whitespace sentence start stays aliased with `current_sent`,
so the later append of token `b`'s line mutates it too and the same two-line
group appears twice (four lines for two non-space tokens). -/
def cexSpaceSents : List (List Str) :=
  [[conll_line ⟨['a'], 0, false, true⟩ ('O' :: '-' :: taskName),
    conll_line ⟨['b'], 2, false, false⟩ ('O' :: '-' :: taskName)],
   [conll_line ⟨['a'], 0, false, true⟩ ('O' :: '-' :: taskName),
    conll_line ⟨['b'], 2, false, false⟩ ('O' :: '-' :: taskName)]]

/-- A small well-behaved two-token document. -/
def exDoc2 : List Token :=
  [⟨"Iron".toList, 0, false, true⟩, ⟨"rusts".toList, 5, false, false⟩]

/-- Annotation-file lines exercising the parser: a matching line, a line of a
different entity, a line that is not an annotation, and a line whose middle
field has the wrong field count. -/
def annLinesEx : List Str :=
  ["T1\tTask 3 9\tfoo bar".toList, "T2\tprocess 0 2\tab".toList,
   "garbage".toList, "T3\tTask x\tbadmid".toList]

/-- An annotation line with the right field counts but non-numeric offsets:
`int()` raises on it. -/
def badAnnLine : Str := "T1\tTask x y\twords".toList

/-- Claim C8's description of one merged line: the word, then the final
column of each of the three aligned lines; a blank line for a blank input
line. -/
def spec_merge_line (t p m : Str) : Str :=
  if pyStrip t = [] then []
  else
    (splitOnChar ' ' (pyStrip t)).headD []
      ++ ' ' :: (splitOnChar ' ' (pyStrip t)).getLastD []
      ++ ' ' :: (splitOnChar ' ' (pyStrip p)).getLastD []
      ++ ' ' :: (splitOnChar ' ' (pyStrip m)).getLastD []

/-- Line-aligned inputs at one position, as claim C8 assumes them: all three
lines blank, or all three split into exactly four space-separated columns
with the same word. -/
def MergeableTriple (t p m : Str) : Prop :=
  (pyStrip t = [] ∧ pyStrip p = [] ∧ pyStrip m = []) ∨
  (∃ w a1 b1 c1 a2 b2 c2 a3 b3 c3,
    splitOnChar ' ' (pyStrip t) = [w, a1, b1, c1] ∧
    splitOnChar ' ' (pyStrip p) = [w, a2, b2, c2] ∧
    splitOnChar ' ' (pyStrip m) = [w, a3, b3, c3])

/-- The condition under which one `merge_files` iteration cannot raise: the
task line is blank (the others are then not even parsed), or all three lines
split into exactly four columns — nothing relates their contents. -/
def MergeLineSafe (t p m : Str) : Prop :=
  pyStrip t = [] ∨
  ((splitOnChar ' ' (pyStrip t)).length = 4 ∧ (splitOnChar ' ' (pyStrip p)).length = 4 ∧
   (splitOnChar ' ' (pyStrip m)).length = 4)

instance decMergeLineSafe (t p m : Str) : Decidable (MergeLineSafe t p m) := by
  unfold MergeLineSafe
  infer_instance

/-- Task, Process and Material CoNLL files with different line counts and
different token columns: `merge_files` still succeeds. -/
def mergeTaskLinesEx : List Str := ["w1 x x A".toList, "ignored O O O".toList]

def mergeProcessLinesEx : List Str := ["w2 y y B".toList]

def mergeMaterialLinesEx : List Str := ["w3 z z C".toList]

/-- Aligned two-line inputs (one token line, one blank line) for the merge
contract. -/
def alignedTaskLinesEx : List Str := ["Iron U-Task U-Task U-Task".toList, [] ]

def alignedProcessLinesEx : List Str := ["Iron O-Process O-Process O-Process".toList, [] ]

def alignedMaterialLinesEx : List Str := ["Iron O-Material O-Material O-Material".toList, [] ]

/-- Claim C9's description of the annotation lines for one entity type:
`T<id>` with ids counting up from `base`, the tag name, the offsets, and the
surface text re-sliced from the original text at those offsets. -/
def spec_ann_lines (text : Str) (tag_name : Str) : Nat → List (Nat × Nat × Str) → List Str
  | _, [] => []
  | base, off :: rest =>
    ('T' :: natToStr base ++ '\t' :: tag_name ++ ' ' :: natToStr off.1
        ++ ' ' :: natToStr off.2.1 ++ '\t' :: sliceText text off.1 off.2.1)
      :: spec_ann_lines text tag_name (base + 1) rest

/-- Text and merged CoNLL lines matching `exDoc2`. -/
def exText2 : Str := "Iron rusts".toList

def exConll2 : List Str :=
  ["Iron U-Task O-Process O-Material".toList, "rusts O-Task O-Process O-Material".toList]

/-- A CoNLL line with five fields: both tuple unpackings raise. -/
def badConllLine : Str := "w x y z extra".toList

/-- A CoNLL line whose Task column tags a token the (empty) re-tokenized text
does not have: the clamped slice of the empty document yields the offsets
`(0, 0)`, which align with no token boundary. -/
def unalignedConllLine : Str := "w U-Task O-Process O-Material".toList

/-- The column lists `write_ann_file_from_conll_file` reads from `exConll2`. -/
def exCols2 : List Str × List Str × List Str × List Str :=
  (["Iron".toList, "rusts".toList], ["U-Task".toList, "O-Task".toList],
   ["O-Process".toList, "O-Process".toList], ["O-Material".toList, "O-Material".toList])

/-- The Task offsets reconstructed from `exConll2` over `exDoc2`. -/
def exOffsT2 : List (Nat × Nat × Str) := [(0, 4, taskName)]

/-- The empty offset list of the entity types without entities in `exConll2`. -/
def exOffsEmpty : List (Nat × Nat × Str) := []

/-- Invariant of the `tags_to_entities` scan at position `p`: with no open
entity, no aligned annotation range is in progress (starts strictly before `p`
and ends at or after it); with an open entity started at `i0`, some aligned
range is exactly that in-progress one. -/
def ScanInv (doc : List Token) (anns : List Annotation) : Option Nat → Nat → Prop
  | none, p => ∀ ent ∈ annotation_spans anns, ∀ i j, RangeOf doc ent i j → ¬(i < p ∧ p ≤ j)
  | some i0, p => ∃ ent ∈ annotation_spans anns, ∃ j0,
      RangeOf doc ent i0 j0 ∧ i0 < p ∧ p ≤ j0

/-- What the `tags_to_entities` scan emits from position `p` on: every aligned
annotation range starting at or after `p`, plus, when an entity is open, the
in-progress range. -/
def ScanEmits (doc : List Token) (anns : List Annotation) (st : Option Nat) (p : Nat)
    (x : Str × Nat × Nat) : Prop :=
  (∃ ent ∈ annotation_spans anns, ∃ i j, RangeOf doc ent i j ∧ p ≤ i ∧ x = (ent.2.2, i, j)) ∨
  (∃ i0, st = some i0 ∧ ∃ ent ∈ annotation_spans anns, ∃ j0,
    RangeOf doc ent i0 j0 ∧ i0 < p ∧ p ≤ j0 ∧ x = (ent.2.2, i0, j0))

/-- Concrete well-formed annotations over `exDoc2` for the round-trip claim:
one Task span on the first token and one Material span on the second. -/
def rtAnnT : List Annotation := [⟨0, 4, "Iron".toList, "T1".toList, taskName⟩]

def rtAnnP : List Annotation := []

def rtAnnM : List Annotation := [⟨5, 10, "rusts".toList, "T2".toList, materialName⟩]

instance decSpanAligned (doc : List Token) (s e : Nat) : Decidable (SpanAligned doc s e) := by
  unfold SpanAligned
  infer_instance

instance decWfDoc (doc : List Token) : Decidable (WfDoc doc) := by
  unfold WfDoc
  infer_instance

instance decWfAnns (doc : List Token) (anns : List Annotation) (entity : Str) :
    Decidable (WfAnns doc anns entity) := by
  unfold WfAnns
  infer_instance

/-! ### Lemmas about the Python string primitives -/

theorem wsSplitGo_append_nonws (w : Str) (hw : ∀ c ∈ w, ¬c.isWhitespace) :
    ∀ cur s, wsSplitGo cur (w ++ s) = wsSplitGo (cur ++ w) s := by
  induction w with
  | nil => intro cur s; simp
  | cons c w ih =>
    intro cur s
    have hc : ¬c.isWhitespace := hw c (by simp)
    have hw' : ∀ d ∈ w, ¬d.isWhitespace := fun d hd => hw d (by simp [hd])
    simp only [List.cons_append, wsSplitGo, hc, Bool.false_eq_true, if_false, List.append_eq]
    rw [ih hw' (cur ++ [c]) s]
    simp

theorem wsSplitGo_space (cur s : Str) (h : cur ≠ []) :
    wsSplitGo cur (' ' :: s) = cur :: wsSplitGo [] s := by
  simp [wsSplitGo, h]

theorem wsSplitGo_nil (cur : Str) (h : cur ≠ []) : wsSplitGo cur [] = [cur] := by
  simp [wsSplitGo, h]

theorem wsSplit_append_space (w s : Str) (hne : w ≠ []) (hw : ∀ c ∈ w, ¬c.isWhitespace) :
    wsSplit (w ++ ' ' :: s) = w :: wsSplit s := by
  unfold wsSplit
  rw [wsSplitGo_append_nonws w hw [] (' ' :: s)]
  simp only [List.nil_append]
  exact wsSplitGo_space w s hne

theorem wsSplit_nonws (w : Str) (hne : w ≠ []) (hw : ∀ c ∈ w, ¬c.isWhitespace) :
    wsSplit w = [w] := by
  unfold wsSplit
  have := wsSplitGo_append_nonws w hw [] []
  simp only [List.append_nil, List.nil_append] at this
  rw [this, wsSplitGo_nil w hne]

theorem splitOnChar_append_sep (sep : Char) (w s : Str) (hw : ∀ c ∈ w, c ≠ sep) :
    splitOnChar sep (w ++ sep :: s) = w :: splitOnChar sep s := by
  induction w with
  | nil => simp [splitOnChar]
  | cons c w ih =>
    have hc : c ≠ sep := hw c (by simp)
    have hw' : ∀ d ∈ w, d ≠ sep := fun d hd => hw d (by simp [hd])
    simp only [List.cons_append, splitOnChar, hc, if_false, List.append_eq, ih hw']

theorem splitOnChar_no_sep (sep : Char) (w : Str) (hw : ∀ c ∈ w, c ≠ sep) :
    splitOnChar sep w = [w] := by
  induction w with
  | nil => simp [splitOnChar]
  | cons c w ih =>
    have hc : c ≠ sep := hw c (by simp)
    have hw' : ∀ d ∈ w, d ≠ sep := fun d hd => hw d (by simp [hd])
    simp only [splitOnChar, hc, if_false, ih hw']

theorem pyStrip_eq_self (s : Str)
    (h1 : ∀ c, s.head? = some c → ¬c.isWhitespace)
    (h2 : ∀ c, s.getLast? = some c → ¬c.isWhitespace) :
    pyStrip s = s := by
  unfold pyStrip
  have hd : s.dropWhile Char.isWhitespace = s := by
    cases s with
    | nil => rfl
    | cons c t =>
      rw [List.dropWhile_cons]
      simp [h1 c rfl]
  rw [hd]
  have hr : s.reverse.dropWhile Char.isWhitespace = s.reverse := by
    cases hsr : s.reverse with
    | nil => rfl
    | cons d r =>
      rw [List.dropWhile_cons]
      have : s.getLast? = some d := by
        rw [← List.head?_reverse, hsr]; rfl
      simp [h2 d this]
  rw [hr, List.reverse_reverse]

/-! ### Decimal rendering and parsing round trip -/

theorem digitChar_isDigit (d : Nat) (h : d < 10) : (Char.ofNat (48 + d)).isDigit = true := by
  interval_cases d <;> decide

theorem digitChar_toNat (d : Nat) (h : d < 10) : (Char.ofNat (48 + d)).toNat - 48 = d := by
  interval_cases d <;> decide

theorem digitChar_not_ws (d : Nat) (h : d < 10) : (Char.ofNat (48 + d)).isWhitespace = false := by
  interval_cases d <;> decide

theorem digitChar_ne_sep (d : Nat) (h : d < 10) (sep : Char) (hsep : sep.toNat < 48) :
    Char.ofNat (48 + d) ≠ sep := by
  intro he
  have h2 : sep.toNat = (Char.ofNat (48 + d)).toNat := by rw [he]
  have h3 : 48 ≤ (Char.ofNat (48 + d)).toNat := by interval_cases d <;> decide
  omega

theorem foldl_decimal (l : List Nat) :
    ∀ acc, List.foldl (fun a d => 10 * a + d) acc l = acc * 10 ^ l.length + Nat.ofDigits 10 l.reverse := by
  induction l with
  | nil => intro acc; simp
  | cons d l ih =>
    intro acc
    rw [List.foldl_cons, ih (10 * acc + d)]
    rw [List.reverse_cons, Nat.ofDigits_append]
    simp [Nat.ofDigits]
    ring

theorem pyInt_natToStr (n : Nat) : pyInt (natToStr n) = some n := by
  by_cases h0 : n = 0
  · subst h0; decide
  · unfold natToStr pyInt
    rw [if_neg h0]
    have hdig : ∀ d ∈ Nat.digits 10 n, d < 10 :=
      fun d hd => Nat.digits_lt_base (by norm_num) hd
    have hne : Nat.digits 10 n ≠ [] := Nat.digits_ne_nil_iff_ne_zero.mpr h0
    rw [if_pos]
    · congr 1
      rw [List.foldl_map]
      have hcong : List.foldl (fun a c => 10 * a + (Char.toNat c - 48)) 0
            ((Nat.digits 10 n).reverse.map (fun d => Char.ofNat (48 + d)))
          = List.foldl (fun a d => 10 * a + d) 0 (Nat.digits 10 n).reverse := by
        rw [List.foldl_map]
        apply List.foldl_ext
        intro a d hd
        rw [digitChar_toNat d (hdig d (List.mem_reverse.mp hd))]
      rw [List.foldl_map] at hcong
      rw [hcong, foldl_decimal, List.reverse_reverse]
      simp [Nat.ofDigits_digits]
    · constructor
      · simp [hne]
      · intro c hc
        obtain ⟨d, hd, rfl⟩ := List.mem_map.mp hc
        exact digitChar_isDigit d (hdig d (List.mem_reverse.mp hd))

theorem natToStr_ne_nil (n : Nat) : natToStr n ≠ [] := by
  unfold natToStr
  by_cases h0 : n = 0
  · simp [h0]
  · rw [if_neg h0]
    simp [Nat.digits_ne_nil_iff_ne_zero.mpr h0]

theorem natToStr_no_ws (n : Nat) : ∀ c ∈ natToStr n, ¬c.isWhitespace := by
  unfold natToStr
  by_cases h0 : n = 0
  · simp [h0]
  · rw [if_neg h0]
    intro c hc
    obtain ⟨d, hd, rfl⟩ := List.mem_map.mp hc
    have := digitChar_not_ws d (Nat.digits_lt_base (by norm_num) (List.mem_reverse.mp hd))
    simp [this]

theorem natToStr_no_tab (n : Nat) : ∀ c ∈ natToStr n, c ≠ '\t' := by
  unfold natToStr
  by_cases h0 : n = 0
  · simp [h0]
  · rw [if_neg h0]
    intro c hc
    obtain ⟨d, hd, rfl⟩ := List.mem_map.mp hc
    exact digitChar_ne_sep d (Nat.digits_lt_base (by norm_num) (List.mem_reverse.mp hd)) '\t'
      (by decide)

/-! ### List access helpers -/

theorem get?_mapIdx (l : List Str) (f : Nat → Str → Str) (k : Nat) :
    (l.mapIdx f).get? k = (l.get? k).map (f k) := by
  by_cases h : k < l.length
  · rw [List.get?_eq_get h, List.get?_eq_get (by simpa [List.length_mapIdx] using h)]
    simp [List.get_mapIdx]
  · have h1 : l.get? k = none := List.get?_eq_none.mpr (by omega)
    have h2 : (l.mapIdx f).get? k = none :=
      List.get?_eq_none.mpr (by rw [List.length_mapIdx]; omega)
    rw [h1, h2]; rfl

theorem get?_set_self (l : List Str) (i : Nat) (a : Str) (h : i < l.length) :
    (l.set i a).get? i = some a := by
  rw [List.get?_eq_get (by simpa using h)]
  simp [List.get_set_eq]

theorem get?_set_ne (l : List Str) (i k : Nat) (a : Str) (h : k ≠ i) :
    (l.set i a).get? k = l.get? k := by
  by_cases hk : k < l.length
  · rw [List.get?_eq_get (by simpa using hk), List.get?_eq_get hk]
    rw [List.get_set_ne (by omega)]
  · have h1 : l.get? k = none := List.get?_eq_none.mpr (by omega)
    have h2 : (l.set i a).get? k = none := List.get?_eq_none.mpr (by simp; omega)
    rw [h1, h2]

/-! ### Pointwise characterization of the BILOU painting -/

theorem length_paintEntity (doc : List Token) (biluo : List Str) (ent : Nat × Nat × Str) :
    (paintEntity doc biluo ent).length = biluo.length := by
  unfold paintEntity
  rcases dictGet Token.idx doc ent.1 with _ | i
  · rfl
  · rcases dictGet Token.tokEnd doc ent.2.1 with _ | j
    · rfl
    · dsimp only
      split <;> simp [List.length_mapIdx]

theorem length_paintAll (doc : List Token) (ents : List (Nat × Nat × Str)) :
    ∀ biluo, (ents.foldl (paintEntity doc) biluo).length = biluo.length := by
  induction ents with
  | nil => intro _; rfl
  | cons e ents ih => intro biluo; rw [List.foldl_cons, ih, length_paintEntity]

theorem paintEntity_get?_of_not_covers (doc : List Token) (biluo : List Str)
    (ent : Nat × Nat × Str) (k : Nat) (h : ¬entRangeCovers doc ent k) :
    (paintEntity doc biluo ent).get? k = biluo.get? k := by
  unfold paintEntity
  cases hs : dictGet Token.idx doc ent.1 with
  | none => rfl
  | some i =>
    cases he : dictGet Token.tokEnd doc ent.2.1 with
    | none => rfl
    | some j =>
      have hnot : ¬(k = i ∨ k = j ∨ (i < k ∧ k < j)) := fun hk => h ⟨i, j, hs, he, hk⟩
      push_neg at hnot
      obtain ⟨h1, h2, h3⟩ := hnot
      dsimp only
      by_cases hij : i = j
      · subst hij
        rw [if_pos rfl]
        exact get?_set_ne biluo i k _ h1
      · rw [if_neg hij, get?_mapIdx]
        have h4 : ¬(i < k ∧ k < j) := by
          intro hk; exact absurd (h3 hk.1) (by omega)
        cases biluo.get? k <;> simp [h1, h2, h4]

theorem paintEntity_get?_of_covers (doc : List Token) (biluo : List Str)
    (ent : Nat × Nat × Str) (k i j : Nat)
    (hs : dictGet Token.idx doc ent.1 = some i)
    (he : dictGet Token.tokEnd doc ent.2.1 = some j)
    (hk : k = i ∨ k = j ∨ (i < k ∧ k < j))
    (hlen : k < biluo.length) :
    (paintEntity doc biluo ent).get? k = some (roleTag ent.2.2 i j k) := by
  unfold paintEntity roleTag
  rw [hs, he]
  dsimp only
  by_cases hij : i = j
  · subst hij
    have hki : k = i := by omega
    subst hki
    rw [if_pos rfl, if_pos rfl]
    exact get?_set_self biluo k _ hlen
  · rw [if_neg hij, if_neg hij, get?_mapIdx, List.get?_eq_get hlen]
    simp only [Option.map_some']
    congr 1
    by_cases h1 : k = i
    · simp [h1]
    · by_cases h2 : k = j
      · simp [h1, h2]
      · have h3 : i < k ∧ k < j := by omega
        simp [h1, h2, h3]

theorem paintAll_get?_uncovered (doc : List Token) (ents : List (Nat × Nat × Str)) (k : Nat)
    (h : ∀ ent ∈ ents, ¬entRangeCovers doc ent k) :
    ∀ biluo, (ents.foldl (paintEntity doc) biluo).get? k = biluo.get? k := by
  induction ents with
  | nil => intro _; rfl
  | cons e ents ih =>
    intro biluo
    rw [List.foldl_cons, ih (fun ent hent => h ent (by simp [hent])),
      paintEntity_get?_of_not_covers doc biluo e k (h e (by simp))]

theorem length_biluo_tags_from_offsets (doc : List Token) (ents : List (Nat × Nat × Str)) :
    (biluo_tags_from_offsets doc ents).length = doc.length := by
  unfold biluo_tags_from_offsets
  rw [List.length_map, List.length_zip, length_paintAll]
  simp

theorem zip_replicate_self {α β : Type} (l : List α) (b : β) :
    l.zip (List.replicate l.length b) = l.map (fun a => (a, b)) := by
  induction l with
  | nil => rfl
  | cons x l ih => simp [List.replicate_succ, List.zip_cons_cons, ih]

theorem filter_zip_length {α β : Type} (p : α → Bool) :
    ∀ (l : List α) (l2 : List β), l.length = l2.length →
      ((l.zip l2).filter (fun q => p q.1)).length = (l.filter p).length := by
  intro l
  induction l with
  | nil => intro l2 _; rfl
  | cons x l ih =>
    intro l2 h
    cases l2 with
    | nil => simp at h
    | cons y l2 =>
      rw [List.zip_cons_cons, List.filter_cons, List.filter_cons]
      cases hpx : p x <;> simp [hpx, ih l2 (by simpa using h)]

theorem entity_bilou_tags_length (doc : List Token) (annotations : List Annotation) (entity : Str) :
    (entity_bilou_tags doc annotations entity).length = doc.length := by
  unfold entity_bilou_tags
  rw [List.length_map, length_biluo_tags_from_offsets]

theorem entity_bilou_tags_uncovered (doc : List Token) (annotations : List Annotation)
    (entity : Str) (k : Nat) (hk : k < doc.length)
    (h : ∀ ent ∈ annotation_spans annotations, ¬entRangeCovers doc ent k) :
    (entity_bilou_tags doc annotations entity).get? k = some ('O' :: '-' :: entity) := by
  unfold entity_bilou_tags biluo_tags_from_offsets
  rw [List.get?_map, List.get?_map]
  have htok : ∃ tok, doc.get? k = some tok := by
    rw [List.get?_eq_get hk]; exact ⟨_, rfl⟩
  obtain ⟨tok, htok⟩ := htok
  have hpaint : ((annotation_spans annotations).foldl (paintEntity doc)
      (List.replicate doc.length ['-'])).get? k = some ['-'] := by
    rw [paintAll_get?_uncovered doc _ k h]
    rw [List.get?_eq_get (by simp [hk])]
    simp [List.get_replicate]
  have hzip := (List.get?_zip_eq_some doc
    ((annotation_spans annotations).foldl (paintEntity doc)
      (List.replicate doc.length ['-'])) (tok, ['-']) k).mpr ⟨htok, hpaint⟩
  rw [hzip]
  simp only [Option.map_some']
  congr 1
  split <;> simp [fixOTag, pyStartsWith, List.isPrefixOf]

/-- Claim C4: `_get_bilou_lines_for_entity` emits exactly one tag line per
non-whitespace token (pure-whitespace tokens are never emitted), and every
token lying outside all aligned spans — in particular every token of a span
that cannot be aligned to token boundaries — carries the tag `O-<entity>`
instead of making the document fail. -/
theorem bilou_lines_per_token_and_o_fallback (doc : List Token)
    (annotations : List Annotation) (entity : Str) :
    bilou_lines_for_entity doc annotations entity
        = ((doc.zip (entity_bilou_tags doc annotations entity)).filter
            (fun p => !p.1.is_space)).map (fun p => conll_line p.1 p.2)
    ∧ (entity_bilou_tags doc annotations entity).length = doc.length
    ∧ (bilou_lines_for_entity doc annotations entity).length
        = (doc.filter (fun t => !t.is_space)).length
    ∧ ∀ k, k < doc.length →
        (∀ ent ∈ annotation_spans annotations, ¬entRangeCovers doc ent k) →
        (entity_bilou_tags doc annotations entity).get? k = some ('O' :: '-' :: entity) := by
  refine ⟨rfl, entity_bilou_tags_length doc annotations entity, ?_, ?_⟩
  · unfold bilou_lines_for_entity
    rw [List.length_map,
      filter_zip_length (fun t => !t.is_space) doc _
        (entity_bilou_tags_length doc annotations entity).symm]
  · exact fun k hk h => entity_bilou_tags_uncovered doc annotations entity k hk h

/-- Claim C5: with zero annotations the BILOU conversion succeeds and every
emitted line carries the tag `O-<entity>`: the output is exactly one all-`O`
line per non-space token. -/
theorem map_filter_eq {α β : Type} (f : α → β) (p : β → Bool) (l : List α) :
    (l.map f).filter p = (l.filter (fun a => p (f a))).map f := by
  induction l with
  | nil => rfl
  | cons x l ih =>
    simp only [List.map_cons, List.filter_cons]
    cases hpx : p (f x) <;> simp [hpx, ih]

/-- Claim C5: with zero annotations the BILOU conversion succeeds and every
emitted line carries the tag `O-<entity>`: the output is exactly one all-`O`
line per non-space token. -/
theorem bilou_lines_zero_annotations_all_o (doc : List Token) (entity : Str) :
    bilou_lines_for_entity doc [] entity
      = (doc.filter (fun t => !t.is_space)).map
          (fun t => conll_line t ('O' :: '-' :: entity)) := by
  have htags : entity_bilou_tags doc [] entity
      = List.replicate doc.length ('O' :: '-' :: entity) := by
    unfold entity_bilou_tags biluo_tags_from_offsets annotation_spans
    simp only [List.map_nil, List.foldl_nil]
    rw [zip_replicate_self]
    apply List.eq_replicate.mpr
    constructor
    · simp
    · intro b hb
      simp only [List.map_map, List.mem_map, Function.comp] at hb
      obtain ⟨t, _, rfl⟩ := hb
      simp [fixOTag, pyStartsWith, List.isPrefixOf]
  unfold bilou_lines_for_entity
  rw [htags, zip_replicate_self, map_filter_eq, List.map_map]
  rfl

/-! ### Sentence grouping lemmas -/

theorem bilou_lines_length (doc : List Token) (annotations : List Annotation) (entity : Str) :
    (bilou_lines_for_entity doc annotations entity).length
      = (doc.filter (fun t => !t.is_space)).length := by
  unfold bilou_lines_for_entity
  rw [List.length_map,
    filter_zip_length (fun t => !t.is_space) doc _
      (entity_bilou_tags_length doc annotations entity).symm]

theorem filter_zip_length_snd {α β : Type} (p : β → Bool) :
    ∀ (l : List α) (l2 : List β), l.length = l2.length →
      ((l.zip l2).filter (fun q => p q.2)).length = (l2.filter p).length := by
  intro l
  induction l with
  | nil =>
    intro l2 h
    cases l2 with
    | nil => rfl
    | cons y l2 => simp at h
  | cons x l ih =>
    intro l2 h
    cases l2 with
    | nil => simp at h
    | cons y l2 =>
      rw [List.zip_cons_cons, List.filter_cons, List.filter_cons]
      cases hpy : p y <;> simp [hpy, ih l2 (by simpa using h)]

theorem sentence_fold_groups_length (l : List (Str × Token)) :
    ∀ acc : List (List Str) × Nat × List Str,
      (l.foldl sentence_step acc).1.length + (l.foldl sentence_step acc).2.1
        = acc.1.length + acc.2.1 + (l.filter (fun p => p.2.is_sent_start)).length := by
  induction l with
  | nil => intro acc; simp
  | cons p l ih =>
    intro acc
    rw [List.foldl_cons, List.filter_cons, ih (sentence_step acc p)]
    unfold sentence_step
    cases hss : p.2.is_sent_start <;> cases hsp : p.2.is_space <;>
      simp [hss, hsp] <;> omega

theorem sentence_fold_join (l : List (Str × Token))
    (hns : ∀ p ∈ l, p.2.is_space = true → p.2.is_sent_start = false) :
    ∀ (dead : List (List Str)) (current : List Str),
      ((l.foldl sentence_step (dead, 0, current)).1
          ++ List.replicate ((l.foldl sentence_step (dead, 0, current)).2.1 + 1)
              (l.foldl sentence_step (dead, 0, current)).2.2).join
        = dead.join ++ current
            ++ (l.filter (fun p => !p.2.is_space)).map (fun p => conll_line p.2 p.1) := by
  induction l with
  | nil => intro dead current; simp
  | cons p l ih =>
    intro dead current
    have hns' : ∀ q ∈ l, q.2.is_space = true → q.2.is_sent_start = false :=
      fun q hq => hns q (by simp [hq])
    rw [List.foldl_cons, List.filter_cons]
    cases hss : p.2.is_sent_start <;> cases hsp : p.2.is_space
    · have hstep : sentence_step (dead, 0, current) p
          = (dead, 0, current ++ [conll_line p.2 p.1]) := by
        simp [sentence_step, hss, hsp]
      rw [hstep, ih hns' dead (current ++ [conll_line p.2 p.1])]
      simp [hsp, List.append_assoc]
    · have hstep : sentence_step (dead, 0, current) p = (dead, 0, current) := by
        simp [sentence_step, hss, hsp]
      rw [hstep, ih hns' dead current]
      simp [hsp]
    · have hstep : sentence_step (dead, 0, current) p
          = (dead ++ [current], 0, [conll_line p.2 p.1]) := by
        simp [sentence_step, hss, hsp]
      rw [hstep, ih hns' (dead ++ [current]) [conll_line p.2 p.1]]
      simp [hsp, List.append_assoc]
    · have := hns p (by simp) hsp
      rw [hss] at this
      cases this

theorem zip_swap_filter_map (lt : List Str) :
    ∀ ld : List Token,
      ((lt.zip ld).filter (fun p => !p.2.is_space)).map (fun p => conll_line p.2 p.1)
        = ((ld.zip lt).filter (fun p => !p.1.is_space)).map (fun p => conll_line p.1 p.2) := by
  induction lt with
  | nil => intro ld; cases ld <;> rfl
  | cons t lt ih =>
    intro ld
    cases ld with
    | nil => rfl
    | cons d ld =>
      rw [List.zip_cons_cons, List.zip_cons_cons, List.filter_cons, List.filter_cons]
      cases hsp : d.is_space <;> simp [hsp, ih ld]

theorem entity_bilou_tags_cons_length {t0 : Token} {docRest : List Token}
    {annotations : List Annotation} {entity : Str} {tag0 : Str} {tagsRest : List Str}
    (h : entity_bilou_tags (t0 :: docRest) annotations entity = tag0 :: tagsRest) :
    tagsRest.length = docRest.length := by
  have hl := entity_bilou_tags_length (t0 :: docRest) annotations entity
  rw [h] at hl
  simpa using hl

theorem entity_bilou_tags_cons_ne_nil (t0 : Token) (docRest : List Token)
    (annotations : List Annotation) (entity : Str) :
    entity_bilou_tags (t0 :: docRest) annotations entity ≠ [] := by
  intro h
  have hl := entity_bilou_tags_length (t0 :: docRest) annotations entity
  rw [h] at hl
  simp at hl

/-- Claim C2 (amended): whenever `get_sentence_wise_bilou_lines` returns
sentence groups and no whitespace token of the document is marked as a
sentence start, the concatenation of the groups is exactly the flat BILOU
line list of the document — every non-space token appears in exactly one
group, in document order — so the total number of emitted lines equals the
number of non-space tokens of the document. -/
theorem sentence_groups_strict_cover (doc : List Token) (annotations : List Annotation)
    (entity_type : Str) (sents : List (List Str))
    (hns : ∀ t ∈ doc, t.is_space = true → t.is_sent_start = false)
    (hok : get_sentence_wise_bilou_lines doc annotations entity_type = Except.ok sents) :
    sents.join = bilou_lines_for_entity doc annotations entity_type
    ∧ sents.join.length = (doc.filter (fun t => !t.is_space)).length := by
  have hmain : sents.join = bilou_lines_for_entity doc annotations entity_type := by
    cases hdoc : doc with
    | nil =>
      rw [hdoc] at hok
      unfold get_sentence_wise_bilou_lines at hok
      cases hok
    | cons t0 docRest =>
      rw [hdoc] at hok
      unfold get_sentence_wise_bilou_lines at hok
      cases htags : entity_bilou_tags (t0 :: docRest) annotations entity_type with
      | nil => exact absurd htags (entity_bilou_tags_cons_ne_nil t0 docRest annotations entity_type)
      | cons tag0 tagsRest =>
        rw [htags] at hok
        dsimp only at hok
        split at hok
        · cases hok with
          | refl =>
            unfold sentence_groups
            rw [sentence_fold_join (tagsRest.zip docRest)
              (fun p hp hsp => by
                obtain ⟨a, b⟩ := p
                refine hns b ?_ hsp
                rw [hdoc]
                exact List.mem_cons_of_mem t0 (List.of_mem_zip hp).2)
              [] (if !t0.is_space then [conll_line t0 tag0] else [])]
            unfold bilou_lines_for_entity
            rw [htags, List.zip_cons_cons, List.filter_cons]
            rw [zip_swap_filter_map tagsRest docRest]
            cases hsp : t0.is_space <;> simp [hsp]
        · cases hok
  refine ⟨hmain, ?_⟩
  rw [hmain, bilou_lines_length]

/-- Claim C2 counterexample: at the sentence-initial whitespace token the
source appends `current_sent` to `sentences` by reference without rebinding
it, so the later append of token `b`'s line mutates the flushed group too:
both groups come out as the same two-line list, the lines of `a` and `b` each
appear in two groups, and the total line count (4) exceeds the number of
non-space tokens (2). -/
theorem sentence_groups_duplicate_line_cex :
    get_sentence_wise_bilou_lines cexSpaceDoc [] taskName = Except.ok cexSpaceSents
    ∧ cexSpaceSents.join.length = 4
    ∧ (cexSpaceDoc.filter (fun t => !t.is_space)).length = 2 :=
  ⟨rfl, rfl, rfl⟩

/-- Witness for the amended claim C2 at a concrete document. -/
theorem sentence_groups_strict_cover_witness :
    [[conll_line ⟨"Iron".toList, 0, false, true⟩ ('O' :: '-' :: taskName),
      conll_line ⟨"rusts".toList, 5, false, false⟩ ('O' :: '-' :: taskName)]].join
        = bilou_lines_for_entity exDoc2 [] taskName
    ∧ [[conll_line ⟨"Iron".toList, 0, false, true⟩ ('O' :: '-' :: taskName),
        conll_line ⟨"rusts".toList, 5, false, false⟩ ('O' :: '-' :: taskName)]].join.length
        = (exDoc2.filter (fun t => !t.is_space)).length :=
  sentence_groups_strict_cover exDoc2 [] taskName _ (by decide) rfl

/-- Claim C3 (amended): on every document with at least one token the number
of produced sentence groups equals the number of sentences that `doc.sents`
detects, so the assertion passes and the function returns the groups. -/
theorem sentence_group_count_matches_doc_sents (doc : List Token)
    (annotations : List Annotation) (entity_type : Str) (hne : doc ≠ []) :
    ∃ sents, get_sentence_wise_bilou_lines doc annotations entity_type = Except.ok sents
      ∧ sents.length = doc_sents_count doc := by
  cases hdoc : doc with
  | nil => exact absurd hdoc hne
  | cons t0 docRest =>
    cases htags : entity_bilou_tags (t0 :: docRest) annotations entity_type with
    | nil => exact absurd htags (entity_bilou_tags_cons_ne_nil t0 docRest annotations entity_type)
    | cons tag0 tagsRest =>
      have hcount : (sentence_groups t0 tag0 docRest tagsRest).length
          = doc_sents_count (t0 :: docRest) := by
        have hfold := sentence_fold_groups_length (tagsRest.zip docRest)
          ([], 0, if !t0.is_space then [conll_line t0 tag0] else [])
        rw [filter_zip_length_snd (fun t => t.is_sent_start) tagsRest docRest
          (entity_bilou_tags_cons_length htags)] at hfold
        simp only [List.length_nil, Nat.zero_add] at hfold
        unfold sentence_groups
        rw [List.length_append, List.length_replicate,
          show doc_sents_count (t0 :: docRest)
            = 1 + (docRest.filter (fun t => t.is_sent_start)).length from rfl]
        omega
      refine ⟨sentence_groups t0 tag0 docRest tagsRest, ?_, hcount⟩
      unfold get_sentence_wise_bilou_lines
      rw [htags]
      dsimp only
      rw [if_pos hcount]

/-- Claim C3 counterexample: a zero-token document raises `IndexError` at
`doc[0]`, before any sentence group or assertion is reached. -/
theorem empty_doc_sentence_wise_index_error :
    get_sentence_wise_bilou_lines [] [] taskName = Except.error indexErrorMsg := rfl

/-- Witness for the amended claim C3 at a concrete document. -/
theorem sentence_group_count_matches_doc_sents_witness :
    ∃ sents, get_sentence_wise_bilou_lines exDoc2 [] taskName = Except.ok sents
      ∧ sents.length = doc_sents_count exDoc2 :=
  sentence_group_count_matches_doc_sents exDoc2 [] taskName (by decide)

/-! ### The annotation parser (claim C6) -/

theorem spec_ann_line_none_of_not_T (entity line : Str)
    (hT : ¬pyStartsWith (pyStrip line) ['T'] = true) :
    spec_ann_line entity line = none := by
  unfold spec_ann_line
  rcases splitOnChar '\t' line with _ | ⟨a, _ | ⟨b, _ | ⟨c, _ | ⟨d, tl⟩⟩⟩⟩ <;> simp [hT]

theorem spec_ann_line_none_of_len (entity line : Str)
    (hlen : (splitOnChar '\t' line).length ≠ 3) :
    spec_ann_line entity line = none := by
  unfold spec_ann_line
  rcases hs : splitOnChar '\t' line with _ | ⟨a, _ | ⟨b, _ | ⟨c, _ | ⟨d, tl⟩⟩⟩⟩
  · rfl
  · rfl
  · rfl
  · rw [hs] at hlen; simp at hlen
  · rfl

theorem spec_ann_line_none_of_mid (entity line a b c : Str)
    (hs : splitOnChar '\t' line = [a, b, c])
    (hws : (wsSplit b).length ≠ 3) :
    spec_ann_line entity line = none := by
  unfold spec_ann_line
  rw [hs]
  dsimp only
  by_cases hT : pyStartsWith (pyStrip line) ['T'] = true
  · rw [if_pos hT]
    rcases hw : wsSplit b with _ | ⟨t1, _ | ⟨t2, _ | ⟨t3, _ | ⟨t4, tl2⟩⟩⟩⟩
    · rfl
    · rfl
    · rfl
    · rw [hw] at hws; simp at hws
    · rfl
  · rw [if_neg hT]

theorem ann_line_step_ok_eq_spec (entity line : Str) (r : Option Annotation)
    (h : ann_line_step entity line = Except.ok r) :
    r = spec_ann_line entity line := by
  unfold ann_line_step at h
  by_cases hT : pyStartsWith (pyStrip line) ['T'] = true
  · by_cases hlen : (splitOnChar '\t' line).length = 3
    · rw [if_pos ⟨hT, hlen⟩] at h
      rcases hs : splitOnChar '\t' line with _ | ⟨a, _ | ⟨b, _ | ⟨c, _ | ⟨d, tl⟩⟩⟩⟩ <;>
        rw [hs] at h hlen <;> try simp at hlen
      dsimp only at h
      by_cases hws : (wsSplit b).length = 3
      · rw [if_neg (by simp [hws])] at h
        rcases hw : wsSplit b with _ | ⟨t1, _ | ⟨t2, _ | ⟨t3, _ | ⟨t4, tl2⟩⟩⟩⟩ <;>
          rw [hw] at h hws <;> try simp at hws
        dsimp only at h
        cases hss : pyInt t2 with
        | none => rw [hss] at h; cases h
        | some s =>
          rw [hss] at h
          cases hse : pyInt t3 with
          | none => rw [hse] at h; cases h
          | some e =>
            rw [hse] at h
            dsimp only at h
            unfold spec_ann_line
            rw [hs]
            dsimp only
            rw [if_pos hT, hw]
            dsimp only
            rw [hss, hse]
            dsimp only
            by_cases htag : pyLower t1 = pyLower entity
            · rw [if_pos htag] at h ⊢
              rw [← Except.ok.inj h]
            · rw [if_neg htag] at h ⊢
              rw [← Except.ok.inj h]
      · rw [if_pos hws] at h
        rw [← Except.ok.inj h]
        exact (spec_ann_line_none_of_mid entity line a b c hs hws).symm
    · rw [if_neg (fun hc => hlen hc.2)] at h
      rw [← Except.ok.inj h]
      exact (spec_ann_line_none_of_len entity line hlen).symm
  · rw [if_neg (fun hc => hT hc.1)] at h
    rw [← Except.ok.inj h]
    exact (spec_ann_line_none_of_not_T entity line hT).symm

/-- Claim C6 (amended): provided no line makes `int()` raise on a non-numeric
offset field, `_get_annotations_for_entity` returns exactly the annotations
of the well-formed lines whose tag matches the requested entity type
case-insensitively; malformed lines (wrong field counts) are skipped, and a
file with no matching line yields the empty list rather than an error. -/
theorem annotations_parser_filters_well_formed (lines : List Str) (entity : Str)
    (hok : ∀ line ∈ lines, (ann_line_step entity line).isOk = true) :
    get_annotations_for_entity lines entity = Except.ok (spec_annotations lines entity) := by
  induction lines with
  | nil => rfl
  | cons line rest ih =>
    have hok' : ∀ l ∈ rest, (ann_line_step entity l).isOk = true :=
      fun l hl => hok l (by simp [hl])
    unfold get_annotations_for_entity
    cases hstep : ann_line_step entity line with
    | error e =>
      have hline := hok line (by simp)
      rw [hstep] at hline
      simp [Except.isOk, Except.toBool] at hline
    | ok a =>
      have ha := ann_line_step_ok_eq_spec entity line a hstep
      rw [ih hok']
      unfold spec_annotations
      rw [List.filterMap_cons, ← ha]
      cases a <;> rfl

/-- Claim C6 counterexample: a line with the right field counts but
non-numeric offsets makes the parser raise `ValueError` instead of skipping
it, while the claim's description yields the empty annotation list. -/
theorem annotations_parser_nonnumeric_cex :
    get_annotations_for_entity [badAnnLine] taskName = Except.error valueErrorMsg
    ∧ spec_annotations [badAnnLine] taskName = [] := ⟨rfl, rfl⟩

/-- Witness for the amended claim C6 on a small annotation file. -/
theorem annotations_parser_filters_well_formed_witness :
    get_annotations_for_entity annLinesEx taskName
      = Except.ok (spec_annotations annLinesEx taskName) :=
  annotations_parser_filters_well_formed annLinesEx taskName (by decide)

/-! ### The channel merger (claims C7 and C8) -/

theorem merge_line_ok_of_safe (t p m : Str) (h : MergeLineSafe t p m) :
    ∃ line, merge_line t p m = Except.ok line := by
  unfold merge_line
  rcases h with hblank | ⟨h1, h2, h3⟩
  · rw [if_neg (by simp [hblank])]
    exact ⟨[], rfl⟩
  · have hne : pyStrip t ≠ [] := by
      intro he; rw [he] at h1; simp [splitOnChar] at h1
    rw [if_pos hne]
    rcases hs1 : splitOnChar ' ' (pyStrip t) with _ | ⟨w1, _ | ⟨a1, _ | ⟨b1, _ | ⟨c1, _ | ⟨d1, r1⟩⟩⟩⟩⟩ <;>
      rw [hs1] at h1 <;> try simp at h1
    rcases hs2 : splitOnChar ' ' (pyStrip p) with _ | ⟨w2, _ | ⟨a2, _ | ⟨b2, _ | ⟨c2, _ | ⟨d2, r2⟩⟩⟩⟩⟩ <;>
      rw [hs2] at h2 <;> try simp at h2
    rcases hs3 : splitOnChar ' ' (pyStrip m) with _ | ⟨w3, _ | ⟨a3, _ | ⟨b3, _ | ⟨c3, _ | ⟨d3, r3⟩⟩⟩⟩⟩ <;>
      rw [hs3] at h3 <;> try simp at h3
    exact ⟨_, rfl⟩

theorem merge_line_ok_of_mergeable (t p m : Str) (h : MergeableTriple t p m) :
    merge_line t p m = Except.ok (spec_merge_line t p m) := by
  unfold merge_line spec_merge_line
  rcases h with ⟨hbt, _, _⟩ | ⟨w, a1, b1, c1, a2, b2, c2, a3, b3, c3, hs1, hs2, hs3⟩
  · rw [if_neg (by simp [hbt]), if_pos hbt]
  · have hne : pyStrip t ≠ [] := by
      intro he; rw [he] at hs1; simp [splitOnChar] at hs1
    rw [if_pos hne, if_neg hne, hs1, hs2, hs3]
    rfl

/-- Claim C8: for line-aligned single-entity CoNLL files, each non-blank
output line is `word task_tag process_tag material_tag` with each tag the
final column of the corresponding input line, and a blank input line yields a
blank output line at the same position; the output has one line per input
line. -/
theorem merge_files_line_aligned_output (tL pL mL : List Str)
    (hlen1 : tL.length = pL.length) (hlen2 : pL.length = mL.length)
    (halign : ∀ q ∈ tL.zip (pL.zip mL), MergeableTriple q.1 q.2.1 q.2.2) :
    merge_files tL pL mL
      = Except.ok ((tL.zip (pL.zip mL)).map (fun q => spec_merge_line q.1 q.2.1 q.2.2))
    ∧ ((tL.zip (pL.zip mL)).map (fun q => spec_merge_line q.1 q.2.1 q.2.2)).length
      = tL.length := by
  refine ⟨?_, by simp [List.length_zip]; omega⟩
  induction tL generalizing pL mL with
  | nil => rfl
  | cons t ts ih =>
    cases pL with
    | nil => simp at hlen1
    | cons p ps =>
      cases mL with
      | nil => simp at hlen2
      | cons m ms =>
        have hline := merge_line_ok_of_mergeable t p m
          (halign (t, (p, m)) (by rw [List.zip_cons_cons, List.zip_cons_cons]; simp))
        have hrest := ih ps ms (by simpa using hlen1) (by simpa using hlen2)
          (fun q hq => halign q (by rw [List.zip_cons_cons, List.zip_cons_cons]; simp [hq]))
        unfold merge_files
        rw [hline, hrest, List.zip_cons_cons, List.zip_cons_cons, List.map_cons]
        rfl

/-- Claim C7 (amended): `merge_files` performs no cross-file consistency
check — with differing line counts or token contents it still completes,
consuming only as many line triples as the shortest input — provided every
consumed triple is parseable (the task line blank, or all three lines with
exactly four space-separated columns); nothing relates the contents of the
three lines. -/
theorem merge_files_no_cross_check (tL pL mL : List Str)
    (hsafe : ∀ q ∈ tL.zip (pL.zip mL), MergeLineSafe q.1 q.2.1 q.2.2) :
    ∃ out, merge_files tL pL mL = Except.ok out
      ∧ out.length = min tL.length (min pL.length mL.length) := by
  induction tL generalizing pL mL with
  | nil => exact ⟨[], rfl, by simp⟩
  | cons t ts ih =>
    cases pL with
    | nil => exact ⟨[], rfl, by simp⟩
    | cons p ps =>
      cases mL with
      | nil => exact ⟨[], rfl, by simp⟩
      | cons m ms =>
        obtain ⟨line, hline⟩ := merge_line_ok_of_safe t p m
          (hsafe (t, (p, m)) (by rw [List.zip_cons_cons, List.zip_cons_cons]; simp))
        obtain ⟨out, hout, hlen⟩ := ih ps ms
          (fun q hq => hsafe q (by rw [List.zip_cons_cons, List.zip_cons_cons]; simp [hq]))
        refine ⟨line :: out, ?_, ?_⟩
        · unfold merge_files
          rw [hline, hout]
          rfl
        · simp [hlen]
          omega

/-- Claim C7 counterexample: a non-blank task line zipped against a blank
process line makes the four-way tuple unpacking raise `ValueError`, so
`merge_files` does not complete on every misaligned input. -/
theorem merge_files_blank_mismatch_cex :
    merge_files ["x a b c".toList] [[]] ["x a b c".toList]
      = Except.error valueErrorMsg := rfl

/-- Witness for the amended claim C7: inputs with different line counts and
different words merge silently, consuming one line triple. -/
theorem merge_files_no_cross_check_witness :
    ∃ out, merge_files mergeTaskLinesEx mergeProcessLinesEx mergeMaterialLinesEx
        = Except.ok out
      ∧ out.length = min mergeTaskLinesEx.length
          (min mergeProcessLinesEx.length mergeMaterialLinesEx.length) :=
  merge_files_no_cross_check mergeTaskLinesEx mergeProcessLinesEx mergeMaterialLinesEx
    (by decide)

/-- Witness for claim C8 on aligned two-line inputs. -/
theorem merge_files_line_aligned_output_witness :
    merge_files alignedTaskLinesEx alignedProcessLinesEx alignedMaterialLinesEx
      = Except.ok ((alignedTaskLinesEx.zip (alignedProcessLinesEx.zip alignedMaterialLinesEx)).map
          (fun q => spec_merge_line q.1 q.2.1 q.2.2))
    ∧ ((alignedTaskLinesEx.zip (alignedProcessLinesEx.zip alignedMaterialLinesEx)).map
          (fun q => spec_merge_line q.1 q.2.1 q.2.2)).length = alignedTaskLinesEx.length :=
  merge_files_line_aligned_output alignedTaskLinesEx alignedProcessLinesEx
    alignedMaterialLinesEx rfl rfl
    (by
      intro q hq
      simp only [alignedTaskLinesEx, alignedProcessLinesEx, alignedMaterialLinesEx,
        List.zip_cons_cons, List.zip_nil_right, List.mem_cons] at hq
      rcases hq with hq | hq
      · subst hq
        exact Or.inr ⟨"Iron".toList, "U-Task".toList, "U-Task".toList, "U-Task".toList,
          "O-Process".toList, "O-Process".toList, "O-Process".toList,
          "O-Material".toList, "O-Material".toList, "O-Material".toList,
          by decide, by decide, by decide⟩
      · simp at hq
        subst hq
        exact Or.inl ⟨rfl, rfl, rfl⟩)

/-! ### The reverse converter (claims C9 and C10) -/

theorem except_bind_ok {α β : Type} (a : α) (f : α → Except Str β) :
    (Except.ok a >>= f) = f a := rfl

theorem except_bind_error {α β : Type} (e : Str) (f : α → Except Str β) :
    ((Except.error e : Except Str α) >>= f) = Except.error e := rfl

theorem dictGetFrom_ne_none (key : Token → Nat) :
    ∀ (doc : List Token) (i k : Nat) (t : Token), t ∈ doc → key t = k →
      dictGetFrom key i doc k ≠ none := by
  intro doc
  induction doc with
  | nil => intro i k t ht; cases ht
  | cons t0 rest ih =>
    intro i k t ht hk
    unfold dictGetFrom
    cases hrec : dictGetFrom key (i + 1) rest k with
    | some j => simp
    | none =>
      rcases List.mem_cons.mp ht with rfl | hmem
      · simp [hk]
      · exact absurd hrec (ih (i + 1) k t hmem hk)

theorem char_span_ne_none (doc : List Token) (s e : Nat)
    (hs : ∃ t ∈ doc, t.idx = s) (he : ∃ t ∈ doc, t.tokEnd = e) :
    char_span doc s e ≠ none := by
  unfold char_span dictGet
  obtain ⟨t1, ht1, hk1⟩ := hs
  obtain ⟨t2, ht2, hk2⟩ := he
  cases h1 : dictGetFrom Token.idx 0 doc s with
  | none => exact absurd h1 (dictGetFrom_ne_none Token.idx doc 0 s t1 ht1 hk1)
  | some i =>
    cases h2 : dictGetFrom Token.tokEnd 0 doc e with
    | none => exact absurd h2 (dictGetFrom_ne_none Token.tokEnd doc 0 e t2 ht2 hk2)
    | some j => simp

theorem tags_to_entities_go_error_msg :
    ∀ (tags : List Str) (i : Nat) (st : Option Nat) (e : Str),
      tags_to_entities_go i st tags = Except.error e → e = valueErrorMsg := by
  intro tags
  induction tags with
  | nil => intro i st e h; cases h
  | cons tag rest ih =>
    intro i st e h
    unfold tags_to_entities_go at h
    by_cases h1 : pyStartsWith tag ['O'] = true
    · rw [if_pos h1] at h; exact ih _ _ _ h
    · rw [if_neg h1] at h
      by_cases h2 : tag = ['-']
      · rw [if_pos h2] at h; exact ih _ _ _ h
      · rw [if_neg h2] at h
        by_cases h3 : pyStartsWith tag ['I'] = true
        · rw [if_pos h3] at h
          cases st with
          | none => exact (Except.error.inj h).symm
          | some s => exact ih _ _ _ h
        · rw [if_neg h3] at h
          by_cases h4 : pyStartsWith tag ['U'] = true
          · rw [if_pos h4] at h
            cases hrec : tags_to_entities_go (i + 1) st rest with
            | error e' =>
              rw [hrec] at h
              dsimp only [Except.map] at h
              exact (Except.error.inj h) ▸ ih _ _ _ hrec
            | ok l =>
              rw [hrec] at h
              dsimp only [Except.map] at h
              cases h
          · rw [if_neg h4] at h
            by_cases h5 : pyStartsWith tag ['B'] = true
            · rw [if_pos h5] at h; exact ih _ _ _ h
            · rw [if_neg h5] at h
              by_cases h6 : pyStartsWith tag ['L'] = true
              · rw [if_pos h6] at h
                cases hrec : tags_to_entities_go (i + 1) none rest with
                | error e' =>
                  rw [hrec] at h
                  dsimp only [Except.map] at h
                  exact (Except.error.inj h) ▸ ih _ _ _ hrec
                | ok l =>
                  rw [hrec] at h
                  dsimp only [Except.map] at h
                  cases h
              · rw [if_neg h6] at h
                exact (Except.error.inj h).symm

theorem offsets_from_biluo_tags_error_msg (doc : List Token) (tags : List Str) (e : Str)
    (h : offsets_from_biluo_tags doc tags = Except.error e) : e = valueErrorMsg := by
  unfold offsets_from_biluo_tags tags_to_entities at h
  cases hte : tags_to_entities_go 0 none tags with
  | error e' =>
    rw [hte] at h
    dsimp only [Except.map] at h
    exact (Except.error.inj h) ▸ tags_to_entities_go_error_msg tags 0 none e' hte
  | ok ents =>
    rw [hte] at h
    dsimp only [Except.map] at h
    cases h

theorem conll_line_columns_cases (line : Str) :
    (∃ c, conll_line_columns line = Except.ok c)
    ∨ conll_line_columns line = Except.error valueErrorMsg := by
  unfold conll_line_columns
  rcases wsSplit line with _ | ⟨a, _ | ⟨b, _ | ⟨c, _ | ⟨d, _ | ⟨f, r⟩⟩⟩⟩⟩
  · right; rfl
  · right; rfl
  · right; rfl
  · left; exact ⟨_, rfl⟩
  · left; exact ⟨_, rfl⟩
  · right; rfl

theorem conll_columns_error_msg :
    ∀ (lines : List Str) (e : Str), conll_columns lines = Except.error e → e = valueErrorMsg := by
  intro lines
  induction lines with
  | nil => intro e h; cases h
  | cons line rest ih =>
    intro e h
    unfold conll_columns at h
    rcases conll_line_columns_cases line with ⟨c, hc⟩ | hc
    · rw [hc, except_bind_ok] at h
      cases hrec : conll_columns rest with
      | error e' =>
        rw [hrec, except_bind_error] at h
        exact (Except.error.inj h) ▸ ih e' hrec
      | ok cr =>
        rw [hrec, except_bind_ok] at h
        cases h
    · rw [hc, except_bind_error] at h
      exact (Except.error.inj h).symm

theorem ann_lines_for_renders (text : Str) (doc : List Token) (tag_name : Str) :
    ∀ (offs : List (Nat × Nat × Str)) (base : Nat),
      (∀ off ∈ offs, char_span doc off.1 off.2.1 ≠ none) →
      ann_lines_for text doc tag_name base offs
        = Except.ok (spec_ann_lines text tag_name base offs) := by
  intro offs
  induction offs with
  | nil => intro base _; rfl
  | cons off rest ih =>
    intro base halign
    unfold ann_lines_for form_ann_line
    cases hcs : char_span doc off.1 off.2.1 with
    | none => exact absurd hcs (halign off (by simp))
    | some q =>
      dsimp only
      rw [except_bind_ok, ih (base + 1) (fun o ho => halign o (by simp [ho])), except_bind_ok]
      rfl

theorem ann_lines_for_ok_aligned (text : Str) (doc : List Token) (tag_name : Str) :
    ∀ (offs : List (Nat × Nat × Str)) (base : Nat) (lines : List Str),
      ann_lines_for text doc tag_name base offs = Except.ok lines →
      ∀ off ∈ offs, char_span doc off.1 off.2.1 ≠ none := by
  intro offs
  induction offs with
  | nil =>
    intro base lines _ off hoff
    cases hoff
  | cons o rest ih =>
    intro base lines h off hoff
    unfold ann_lines_for form_ann_line at h
    cases hcs : char_span doc o.1 o.2.1 with
    | none =>
      rw [hcs] at h
      dsimp only at h
      rw [except_bind_error] at h
      cases h
    | some q =>
      rw [hcs] at h
      dsimp only at h
      rw [except_bind_ok] at h
      cases hrest : ann_lines_for text doc tag_name (base + 1) rest with
      | error e =>
        rw [hrest, except_bind_error] at h
        cases h
      | ok ls =>
        rcases List.mem_cons.mp hoff with rfl | hmem
        · rw [hcs]
          simp
        · exact ih (base + 1) ls hrest off hmem

theorem write_ann_renders (text : Str) (doc : List Token)
    (conll : List Str) (cols : List Str × List Str × List Str × List Str)
    (oT oP oM : List (Nat × Nat × Str))
    (hcols : conll_columns conll = Except.ok cols)
    (hoT : offsets_from_biluo_tags doc cols.2.1 = Except.ok oT)
    (hoP : offsets_from_biluo_tags doc cols.2.2.1 = Except.ok oP)
    (hoM : offsets_from_biluo_tags doc cols.2.2.2 = Except.ok oM)
    (haT : ∀ off ∈ oT, char_span doc off.1 off.2.1 ≠ none)
    (haP : ∀ off ∈ oP, char_span doc off.1 off.2.1 ≠ none)
    (haM : ∀ off ∈ oM, char_span doc off.1 off.2.1 ≠ none) :
    write_ann_file_from_conll_file text doc conll
      = Except.ok (spec_ann_lines text taskName 0 oT
          ++ spec_ann_lines text processName oT.length oP
          ++ spec_ann_lines text materialName (oT.length + oP.length) oM) := by
  unfold write_ann_file_from_conll_file
  rw [hcols, except_bind_ok, hoT, except_bind_ok, hoP, except_bind_ok, hoM, except_bind_ok]
  rw [ann_lines_for_renders text doc taskName oT 0 haT, except_bind_ok]
  rw [ann_lines_for_renders text doc processName oP oT.length haP, except_bind_ok]
  rw [ann_lines_for_renders text doc materialName oM (oT.length + oP.length) haM,
    except_bind_ok]

/-- Claim C9: on the success path — the CoNLL columns parse, the three tag
columns reconstruct offset lists, and each reconstructed span is
token-aligned — `write_ann_file_from_conll_file` numbers entities with a
single counter running through all Task entities, then Process, then
Material (never resetting per type), and each emitted line is
`T<id> TAB <Tag> <start> <end> TAB <surface>` with the surface text re-sliced
from the original text at the reconstructed offsets. -/
theorem write_ann_sequential_ids_and_slices (text : Str) (doc : List Token)
    (conll : List Str) (cols : List Str × List Str × List Str × List Str)
    (oT oP oM : List (Nat × Nat × Str))
    (hcols : conll_columns conll = Except.ok cols)
    (hoT : offsets_from_biluo_tags doc cols.2.1 = Except.ok oT)
    (hoP : offsets_from_biluo_tags doc cols.2.2.1 = Except.ok oP)
    (hoM : offsets_from_biluo_tags doc cols.2.2.2 = Except.ok oM)
    (haT : ∀ off ∈ oT, char_span doc off.1 off.2.1 ≠ none)
    (haP : ∀ off ∈ oP, char_span doc off.1 off.2.1 ≠ none)
    (haM : ∀ off ∈ oM, char_span doc off.1 off.2.1 ≠ none) :
    write_ann_file_from_conll_file text doc conll
      = Except.ok (spec_ann_lines text taskName 0 oT
          ++ spec_ann_lines text processName oT.length oP
          ++ spec_ann_lines text materialName (oT.length + oP.length) oM) :=
  write_ann_renders text doc conll cols oT oP oM hcols hoT hoP hoM haT haP haM

/-- Witness for claim C9 on `exDoc2` with one Task entity. -/
theorem write_ann_sequential_ids_and_slices_witness :
    write_ann_file_from_conll_file exText2 exDoc2 exConll2
      = Except.ok (spec_ann_lines exText2 taskName 0 exOffsT2
          ++ spec_ann_lines exText2 processName exOffsT2.length exOffsEmpty
          ++ spec_ann_lines exText2 materialName (exOffsT2.length + exOffsEmpty.length)
              exOffsEmpty) :=
  write_ann_sequential_ids_and_slices exText2 exDoc2 exConll2 exCols2 exOffsT2
    exOffsEmpty exOffsEmpty rfl rfl rfl rfl (by decide) (by decide) (by decide)

/-- Claim C10: reverse conversion is partial.  On `unalignedConllLine` over
the empty re-tokenized text, the clamped slice of the empty document
reconstructs the offsets `(0, 0)`, which align with no token boundary, so
`doc.char_span` returns `None` and `_form_ann_line` raises `AttributeError`
inside `write_ann_file_from_conll_file` instead of skipping the span; and
whenever `write_ann_file_from_conll_file` succeeds, every reconstructed span
passed `doc.char_span`, i.e. is token-aligned. -/
theorem reverse_conversion_partiality :
    write_ann_file_from_conll_file [] [] [unalignedConllLine]
        = Except.error attributeErrorMsg
    ∧ offsets_from_biluo_tags ([] : List Token) ["U-Task".toList]
        = Except.ok [(0, 0, "Task".toList)]
    ∧ char_span ([] : List Token) 0 0 = none
    ∧ (∀ (text : Str) (doc : List Token) (conll annLines : List Str)
          (cols : List Str × List Str × List Str × List Str)
          (oT oP oM : List (Nat × Nat × Str)),
        write_ann_file_from_conll_file text doc conll = Except.ok annLines →
        conll_columns conll = Except.ok cols →
        offsets_from_biluo_tags doc cols.2.1 = Except.ok oT →
        offsets_from_biluo_tags doc cols.2.2.1 = Except.ok oP →
        offsets_from_biluo_tags doc cols.2.2.2 = Except.ok oM →
        ∀ off ∈ oT ++ oP ++ oM, char_span doc off.1 off.2.1 ≠ none) := by
  refine ⟨rfl, rfl, rfl, ?_⟩
  intro text doc conll annLines cols oT oP oM hok hcols hoT hoP hoM off hoff
  unfold write_ann_file_from_conll_file at hok
  rw [hcols, except_bind_ok, hoT, except_bind_ok, hoP, except_bind_ok,
    hoM, except_bind_ok] at hok
  cases hTl : ann_lines_for text doc taskName 0 oT with
  | error e =>
    rw [hTl, except_bind_error] at hok
    cases hok
  | ok lT =>
    rw [hTl, except_bind_ok] at hok
    cases hPl : ann_lines_for text doc processName oT.length oP with
    | error e =>
      rw [hPl, except_bind_error] at hok
      cases hok
    | ok lP =>
      rw [hPl, except_bind_ok] at hok
      cases hMl : ann_lines_for text doc materialName (oT.length + oP.length) oM with
      | error e =>
        rw [hMl, except_bind_error] at hok
        cases hok
      | ok lM =>
        rcases List.mem_append.mp hoff with hoffTP | hoffM
        · rcases List.mem_append.mp hoffTP with hoffT | hoffP
          · exact ann_lines_for_ok_aligned text doc taskName oT 0 lT hTl off hoffT
          · exact ann_lines_for_ok_aligned text doc processName oP oT.length lP hPl off hoffP
        · exact ann_lines_for_ok_aligned text doc materialName oM (oT.length + oP.length)
            lM hMl off hoffM

/-! ### Round-trip analysis: facts about well-formed documents -/

theorem wfdoc_mono {doc : List Token} (h : WfDoc doc) {i j : Nat} {ti tj : Token}
    (hi : doc.get? i = some ti) (hj : doc.get? j = some tj) (hij : i < j) :
    ti.tokEnd ≤ tj.idx := by
  have hi' : i < doc.length := by
    by_contra hc
    rw [List.get?_eq_none.mpr (by omega)] at hi
    cases hi
  have hj' : j < doc.length := by
    by_contra hc
    rw [List.get?_eq_none.mpr (by omega)] at hj
    cases hj
  have := List.pairwise_iff_getElem.mp h.2 i j hi' hj' hij
  rw [List.get?_eq_get hi'] at hi
  rw [List.get?_eq_get hj'] at hj
  rw [← Option.some.inj hi, ← Option.some.inj hj]
  simpa [List.get_eq_getElem] using this

theorem wfdoc_len_pos {doc : List Token} (h : WfDoc doc) {i : Nat} {ti : Token}
    (hi : doc.get? i = some ti) : 1 ≤ ti.text.length := by
  have hmem : ti ∈ doc := List.get?_mem hi
  have hne := (h.1 ti hmem).1
  cases he : ti.text with
  | nil => exact absurd he hne
  | cons c r => simp [he]

theorem wfdoc_idx_lt_tokEnd {doc : List Token} (h : WfDoc doc) {i : Nat} {ti : Token}
    (hi : doc.get? i = some ti) : ti.idx < ti.tokEnd := by
  have := wfdoc_len_pos h hi
  unfold Token.tokEnd
  omega

theorem wfdoc_idx_inj {doc : List Token} (h : WfDoc doc) {i j : Nat} {ti tj : Token}
    (hi : doc.get? i = some ti) (hj : doc.get? j = some tj) (he : ti.idx = tj.idx) :
    i = j := by
  rcases Nat.lt_trichotomy i j with hij | hij | hij
  · have h1 := wfdoc_mono h hi hj hij
    have h2 := wfdoc_idx_lt_tokEnd h hi
    omega
  · exact hij
  · have h1 := wfdoc_mono h hj hi hij
    have h2 := wfdoc_idx_lt_tokEnd h hj
    omega

theorem wfdoc_tokEnd_inj {doc : List Token} (h : WfDoc doc) {i j : Nat} {ti tj : Token}
    (hi : doc.get? i = some ti) (hj : doc.get? j = some tj) (he : ti.tokEnd = tj.tokEnd) :
    i = j := by
  rcases Nat.lt_trichotomy i j with hij | hij | hij
  · have h1 := wfdoc_mono h hi hj hij
    have h2 := wfdoc_idx_lt_tokEnd h hj
    omega
  · exact hij
  · have h1 := wfdoc_mono h hj hi hij
    have h2 := wfdoc_idx_lt_tokEnd h hi
    omega

/-! ### Dictionary lookup characterization -/

theorem dictGetFrom_none_of_no_match (key : Token → Nat) :
    ∀ (doc : List Token) (b k : Nat), (∀ t ∈ doc, key t ≠ k) →
      dictGetFrom key b doc k = none := by
  intro doc
  induction doc with
  | nil => intro b k _; rfl
  | cons t rest ih =>
    intro b k h
    unfold dictGetFrom
    rw [ih (b + 1) k (fun t' ht' => h t' (by simp [ht']))]
    simp [h t (by simp)]

theorem dictGetFrom_some_spec (key : Token → Nat) :
    ∀ (doc : List Token) (b k i : Nat), dictGetFrom key b doc k = some i →
      ∃ m ti, i = b + m ∧ doc.get? m = some ti ∧ key ti = k := by
  intro doc
  induction doc with
  | nil => intro b k i h; cases h
  | cons t rest ih =>
    intro b k i h
    unfold dictGetFrom at h
    cases hrec : dictGetFrom key (b + 1) rest k with
    | some j =>
      rw [hrec] at h
      obtain ⟨m, ti, hjm, hget, hkey⟩ := ih (b + 1) k j hrec
      refine ⟨m + 1, ti, ?_, by simpa using hget, hkey⟩
      have hji : j = i := Option.some.inj h
      omega
    | none =>
      rw [hrec] at h
      dsimp only at h
      by_cases hk : key t = k
      · rw [if_pos hk] at h
        exact ⟨0, t, (Option.some.inj h).symm, rfl, hk⟩
      · rw [if_neg hk] at h
        cases h

theorem dictGet_some_spec (key : Token → Nat) (doc : List Token) (k i : Nat)
    (h : dictGet key doc k = some i) :
    ∃ ti, doc.get? i = some ti ∧ key ti = k := by
  obtain ⟨m, ti, him, hget, hkey⟩ := dictGetFrom_some_spec key doc 0 k i h
  exact ⟨ti, by rw [him]; simpa using hget, hkey⟩

theorem dictGetFrom_some_of_match (key : Token → Nat) :
    ∀ (doc : List Token) (b k i0 : Nat) (t0 : Token),
      doc.get? i0 = some t0 → key t0 = k →
      (∀ (i1 : Nat) (t1 : Token), doc.get? i1 = some t1 → key t1 = k → i1 = i0) →
      dictGetFrom key b doc k = some (b + i0) := by
  intro doc
  induction doc with
  | nil => intro b k i0 t0 h; cases h
  | cons t rest ih =>
    intro b k i0 t0 hget hkey huniq
    unfold dictGetFrom
    cases hi0 : i0 with
    | zero =>
      rw [hi0] at hget
      have ht : t = t0 := Option.some.inj hget
      have hnone : dictGetFrom key (b + 1) rest k = none := by
        apply dictGetFrom_none_of_no_match
        intro t' ht' hk'
        obtain ⟨n, hn⟩ := List.mem_iff_get?.mp ht'
        have : n + 1 = i0 := huniq (n + 1) t' (by simpa using hn) hk'
        omega
      rw [hnone]
      simp [ht ▸ hkey]
    | succ m0 =>
      rw [hi0] at hget
      have hrec := ih (b + 1) k m0 t0 (by simpa using hget) hkey
        (fun i1 t1 hget1 hkey1 => by
          have := huniq (i1 + 1) t1 (by simpa using hget1) hkey1
          omega)
      rw [hrec]
      simp
      omega

theorem dictGet_idx_of_aligned {doc : List Token} (hdoc : WfDoc doc) {s i : Nat} {ti : Token}
    (hi : doc.get? i = some ti) (hidx : ti.idx = s) :
    dictGet Token.idx doc s = some i := by
  unfold dictGet
  have := dictGetFrom_some_of_match Token.idx doc 0 s i ti hi hidx
    (fun i1 t1 hget1 hkey1 => wfdoc_idx_inj hdoc hget1 hi (by rw [hkey1, hidx]))
  simpa using this

theorem dictGet_tokEnd_of_aligned {doc : List Token} (hdoc : WfDoc doc) {e j : Nat} {tj : Token}
    (hj : doc.get? j = some tj) (hend : tj.tokEnd = e) :
    dictGet Token.tokEnd doc e = some j := by
  unfold dictGet
  have := dictGetFrom_some_of_match Token.tokEnd doc 0 e j tj hj hend
    (fun i1 t1 hget1 hkey1 => wfdoc_tokEnd_inj hdoc hget1 hj (by rw [hkey1, hend]))
  simpa using this

theorem aligned_range {doc : List Token} (hdoc : WfDoc doc) {s e : Nat}
    (hal : SpanAligned doc s e) :
    ∃ i j ti tj, i ≤ j ∧ doc.get? i = some ti ∧ doc.get? j = some tj ∧
      ti.idx = s ∧ tj.tokEnd = e ∧
      dictGet Token.idx doc s = some i ∧ dictGet Token.tokEnd doc e = some j := by
  obtain ⟨⟨i, hi⟩, ⟨j, hj⟩, hij, hidx, hend⟩ := hal
  exact ⟨i, j, doc.get ⟨i, hi⟩, doc.get ⟨j, hj⟩, hij, List.get?_eq_get hi,
    List.get?_eq_get hj, hidx, hend,
    dictGet_idx_of_aligned hdoc (List.get?_eq_get hi) hidx,
    dictGet_tokEnd_of_aligned hdoc (List.get?_eq_get hj) hend⟩

theorem covered_char {doc : List Token} (hdoc : WfDoc doc) {i j k : Nat} {ti tj tk : Token}
    (hi : doc.get? i = some ti) (hj : doc.get? j = some tj) (hk : doc.get? k = some tk)
    (hij : i ≤ j) (hpos : k = i ∨ k = j ∨ (i < k ∧ k < j)) :
    ti.idx ≤ tk.idx ∧ tk.idx < tj.tokEnd := by
  have hik : i ≤ k := by rcases hpos with rfl | rfl | ⟨h1, _⟩ <;> omega
  have hkj : k ≤ j := by rcases hpos with rfl | rfl | ⟨_, h2⟩ <;> omega
  constructor
  · by_cases hik' : i = k
    · subst hik'
      rw [Option.some.inj (hi.symm.trans hk)]
    · have h1 := wfdoc_mono hdoc hi hk (by omega)
      have h2 : ti.idx ≤ ti.tokEnd := Nat.le_add_right _ _
      omega
  · by_cases hkj' : k = j
    · subst hkj'
      rw [Option.some.inj (hk.symm.trans hj)]
      exact wfdoc_idx_lt_tokEnd hdoc hj
    · have h1 := wfdoc_mono hdoc hk hj (by omega)
      have h2 := wfdoc_idx_lt_tokEnd hdoc hk
      have h3 : tj.idx ≤ tj.tokEnd := Nat.le_add_right _ _
      omega

theorem coversB_true_spec {doc : List Token} {ent : Nat × Nat × Str} {k : Nat}
    (h : coversB doc ent k = true) :
    ∃ i j, dictGet Token.idx doc ent.1 = some i ∧ dictGet Token.tokEnd doc ent.2.1 = some j ∧
      (k = i ∨ k = j ∨ (i < k ∧ k < j)) := by
  unfold coversB at h
  cases h1 : dictGet Token.idx doc ent.1 with
  | none => rw [h1] at h; cases h
  | some i =>
    cases h2 : dictGet Token.tokEnd doc ent.2.1 with
    | none => rw [h1, h2] at h; cases h
    | some j =>
      rw [h1, h2] at h
      exact ⟨i, j, rfl, rfl, by simpa using h⟩

theorem coversB_false_not_covers {doc : List Token} {ent : Nat × Nat × Str} {k : Nat}
    (h : coversB doc ent k = false) : ¬entRangeCovers doc ent k := by
  rintro ⟨i, j, h1, h2, h3⟩
  unfold coversB at h
  rw [h1, h2] at h
  simpa [h3] using h

/-- In a well-formed setting, the `(start, end, tag)` span of every annotation
of the list determines a token range `i ≤ j` whose painting positions lie
under it; two spans of the list covering the same position are equal. -/
theorem covering_unique {doc : List Token} {anns : List Annotation} {entity : Str}
    (hdoc : WfDoc doc) (hanns : WfAnns doc anns entity)
    {e1 e2 : Nat × Nat × Str} {k : Nat}
    (h1 : e1 ∈ annotation_spans anns) (h2 : e2 ∈ annotation_spans anns)
    (hc1 : coversB doc e1 k = true) (hc2 : coversB doc e2 k = true) : e1 = e2 := by
  obtain ⟨a1, ha1, rfl⟩ := List.mem_map.mp h1
  obtain ⟨a2, ha2, rfl⟩ := List.mem_map.mp h2
  obtain ⟨i1, j1, hs1, he1, hp1⟩ := coversB_true_spec hc1
  obtain ⟨i2, j2, hs2, he2, hp2⟩ := coversB_true_spec hc2
  obtain ⟨ti1, hgi1, hk1⟩ := dictGet_some_spec _ doc _ _ hs1
  obtain ⟨tj1, hgj1, hk1e⟩ := dictGet_some_spec _ doc _ _ he1
  obtain ⟨ti2, hgi2, hk2⟩ := dictGet_some_spec _ doc _ _ hs2
  obtain ⟨tj2, hgj2, hk2e⟩ := dictGet_some_spec _ doc _ _ he2
  -- the canonical aligned ranges agree with the looked-up ones, giving i ≤ j
  obtain ⟨i1', j1', ti1', tj1', hij1, hgi1', hgj1', _, _, hs1', he1'⟩ :=
    aligned_range hdoc ((hanns.1 a1 ha1).2.2)
  obtain ⟨i2', j2', ti2', tj2', hij2, hgi2', hgj2', _, _, hs2', he2'⟩ :=
    aligned_range hdoc ((hanns.1 a2 ha2).2.2)
  have hi1 : i1 = i1' := Option.some.inj (hs1.symm.trans hs1')
  have hj1 : j1 = j1' := Option.some.inj (he1.symm.trans he1')
  have hi2 : i2 = i2' := Option.some.inj (hs2.symm.trans hs2')
  have hj2 : j2 = j2' := Option.some.inj (he2.symm.trans he2')
  obtain ⟨tk, hgk⟩ : ∃ tk, doc.get? k = some tk := by
    rcases hp1 with rfl | rfl | ⟨hl, hr⟩
    · exact ⟨ti1, hgi1⟩
    · exact ⟨tj1, hgj1⟩
    · cases hg : doc.get? k with
      | some tk => exact ⟨tk, rfl⟩
      | none =>
        exfalso
        have hklen : doc.length ≤ k := by
          by_contra hc
          rw [List.get?_eq_get (by omega)] at hg
          cases hg
        have hjlen : j1 < doc.length := by
          by_contra hc
          rw [List.get?_eq_none.mpr (by omega)] at hgj1
          cases hgj1
        omega
  have hchar1 := covered_char hdoc hgi1 hgj1 hgk (by omega) hp1
  have hchar2 := covered_char hdoc hgi2 hgj2 hgk (by omega) hp2
  rw [hk1, hk1e] at hchar1
  rw [hk2, hk2e] at hchar2
  -- pairwise non-overlap forces the two annotations to be equal
  by_cases heq : a1 = a2
  · rw [heq]
  · have hsym : Symmetric (fun a b : Annotation => a = b ∨ a.stop ≤ b.start ∨ b.stop ≤ a.start) := by
      intro a b hab
      rcases hab with rfl | hab | hab
      · exact Or.inl rfl
      · exact Or.inr (Or.inr hab)
      · exact Or.inr (Or.inl hab)
    have := (hanns.2.forall hsym) ha1 ha2 heq
    rcases this with hab | hab | hab
    · exact absurd hab heq
    · dsimp only at hchar1 hchar2
      omega
    · dsimp only at hchar1 hchar2
      omega

theorem paintAll_get?_covered (doc : List Token) (ents : List (Nat × Nat × Str))
    (k : Nat) (ent : Nat × Nat × Str) (i j : Nat)
    (hmem : ent ∈ ents)
    (hs : dictGet Token.idx doc ent.1 = some i)
    (he : dictGet Token.tokEnd doc ent.2.1 = some j)
    (hk : k = i ∨ k = j ∨ (i < k ∧ k < j))
    (hsep : ∀ e' ∈ ents, e' = ent ∨ ¬entRangeCovers doc e' k) :
    ∀ biluo : List Str, k < biluo.length →
      (ents.foldl (paintEntity doc) biluo).get? k = some (roleTag ent.2.2 i j k) := by
  induction ents with
  | nil => cases hmem
  | cons e0 rest ih =>
    intro biluo hlen
    rw [List.foldl_cons]
    by_cases hmem' : ent ∈ rest
    · exact ih hmem' (fun e' he' => hsep e' (by simp [he'])) (paintEntity doc biluo e0)
        (by rw [length_paintEntity]; exact hlen)
    · have he0 : e0 = ent := by
        rcases List.mem_cons.mp hmem with h | h
        · exact h.symm
        · exact absurd h hmem'
      subst he0
      have hrest : ∀ e' ∈ rest, ¬entRangeCovers doc e' k := by
        intro e' he'
        rcases hsep e' (by simp [he']) with rfl | h
        · exact absurd he' hmem'
        · exact h
      rw [paintAll_get?_uncovered doc rest k hrest]
      exact paintEntity_get?_of_covers doc biluo e0 k i j hs he hk hlen

theorem fixOTag_cons_ne (entity : Str) (c : Char) (r : Str) (hO : c ≠ 'O')
    (hne : c :: r ≠ ['-']) :
    fixOTag entity (c :: r) = c :: r := by
  unfold fixOTag
  rw [if_neg]
  intro h
  simp only [pyStartsWith, Bool.or_eq_true, beq_iff_eq] at h
  rcases h with h | h
  · simp [List.isPrefixOf] at h
    exact hO h.symm
  · exact hne h

theorem fixOTag_roleTag (entity lab : Str) (i j k : Nat) :
    fixOTag entity (roleTag lab i j k) = roleTag lab i j k := by
  unfold roleTag
  split_ifs <;> exact fixOTag_cons_ne entity _ _ (by decide) (by simp)

theorem entity_bilou_tags_pattern (doc : List Token) (anns : List Annotation) (entity : Str)
    (hdoc : WfDoc doc) (hanns : WfAnns doc anns entity) (k : Nat) (hk : k < doc.length) :
    (entity_bilou_tags doc anns entity).get? k = some (tagPattern doc anns entity k) := by
  unfold tagPattern
  cases hfind : (annotation_spans anns).find? (fun ent => coversB doc ent k) with
  | none =>
    have hnone : ∀ ent ∈ annotation_spans anns, ¬entRangeCovers doc ent k := by
      intro ent hent
      exact coversB_false_not_covers (by simpa using List.find?_eq_none.mp hfind ent hent)
    rw [entity_bilou_tags_uncovered doc anns entity k hk hnone]
  | some ent =>
    have hmem := List.mem_of_find?_eq_some hfind
    have hcov := List.find?_some hfind
    obtain ⟨i, j, hs, he, hp⟩ := coversB_true_spec hcov
    dsimp only
    rw [hs, he]
    dsimp only
    unfold entity_bilou_tags biluo_tags_from_offsets
    rw [List.get?_map, List.get?_map]
    have hlen : k < (List.replicate doc.length (['-'] : Str)).length := by simp [hk]
    have hsep : ∀ e' ∈ annotation_spans anns, e' = ent ∨ ¬entRangeCovers doc e' k := by
      intro e' he'
      by_cases hc : coversB doc e' k = true
      · exact Or.inl (covering_unique hdoc hanns he' hmem hc hcov)
      · exact Or.inr (coversB_false_not_covers (by simpa using hc))
    have hpaint := paintAll_get?_covered doc (annotation_spans anns) k ent i j hmem hs he hp hsep
      (List.replicate doc.length ['-']) hlen
    have htok : doc.get? k = some (doc.get ⟨k, hk⟩) := List.get?_eq_get hk
    have hzip := (List.get?_zip_eq_some doc
      ((annotation_spans anns).foldl (paintEntity doc) (List.replicate doc.length ['-']))
      (doc.get ⟨k, hk⟩, roleTag ent.2.2 i j k) k).mpr ⟨htok, hpaint⟩
    rw [hzip]
    simp only [Option.map_some']
    congr 1
    -- token k lies inside the span's characters, so the O pass keeps the role
    obtain ⟨ti, hgi, hki⟩ := dictGet_some_spec _ doc _ _ hs
    obtain ⟨tj, hgj, hkj⟩ := dictGet_some_spec _ doc _ _ he
    obtain ⟨a, ha, hae⟩ := List.mem_map.mp hmem
    obtain ⟨i', j', ti', tj', hij', hgi', hgj', _, _, hs', he'⟩ :=
      aligned_range hdoc ((hanns.1 a ha).2.2)
    have hii : i = i' := by
      have h : dictGet Token.idx doc ent.1 = some i' := by rw [← hae]; exact hs'
      exact Option.some.inj (hs.symm.trans h)
    have hjj : j = j' := by
      have h : dictGet Token.tokEnd doc ent.2.1 = some j' := by rw [← hae]; exact he'
      exact Option.some.inj (he.symm.trans h)
    have hchar := covered_char hdoc hgi hgj htok (by omega) hp
    rw [hki, hkj] at hchar
    have hov : ((List.range (doc.get ⟨k, hk⟩).text.length).all
        (fun o => !((annotation_spans anns).any
          (fun ent' => decide (ent'.1 ≤ (doc.get ⟨k, hk⟩).idx + o)
            && decide ((doc.get ⟨k, hk⟩).idx + o < ent'.2.1))))) = false := by
      refine List.all_eq_false.mpr ⟨0, List.mem_range.mpr ?_, ?_⟩
      · have := wfdoc_len_pos hdoc htok
        omega
      · intro hcontra
        rw [Bool.not_eq_true'] at hcontra
        have hany : ((annotation_spans anns).any
            (fun ent' => decide (ent'.1 ≤ (doc.get ⟨k, hk⟩).idx + 0)
              && decide ((doc.get ⟨k, hk⟩).idx + 0 < ent'.2.1))) = true :=
          List.any_eq_true.mpr ⟨ent, hmem, by
            simp only [Bool.and_eq_true, decide_eq_true_eq]
            omega⟩
        exact absurd (hany.symm.trans hcontra) (by decide)
    rw [hov, if_neg (by decide : ¬(false = true))]
    exact fixOTag_roleTag entity ent.2.2 i j k

/-! ### Transporting the tag streams through merge and parse -/

theorem head?_append_left {α : Type} (l r : List α) (h : l ≠ []) :
    (l ++ r).head? = l.head? := by
  cases l with
  | nil => exact absurd rfl h
  | cons x xs => rfl

theorem getLast?_append_right {α : Type} (l r : List α) (h : r ≠ []) :
    (l ++ r).getLast? = r.getLast? := by
  rw [← List.head?_reverse, ← List.head?_reverse, List.reverse_append,
    head?_append_left _ _ (by simpa using h)]

theorem conll_line_strip (t : Token) (a : Str)
    (htne : t.text ≠ []) (htws : ∀ ch ∈ t.text, ¬ch.isWhitespace)
    (hane : a ≠ []) (haws : ∀ ch ∈ a, ¬ch.isWhitespace) :
    pyStrip (conll_line t a) = conll_line t a := by
  apply pyStrip_eq_self
  · intro ch hch
    unfold conll_line at hch
    rw [show t.text ++ ' ' :: a ++ ' ' :: a ++ ' ' :: a
        = t.text ++ (' ' :: a ++ ' ' :: a ++ ' ' :: a) by simp,
      head?_append_left _ _ htne] at hch
    cases he : t.text with
    | nil => exact absurd he htne
    | cons c0 r0 =>
      rw [he] at hch
      exact htws ch (by rw [he, ← Option.some.inj hch]; simp)
  · intro ch hch
    unfold conll_line at hch
    rw [show t.text ++ ' ' :: a ++ ' ' :: a ++ ' ' :: a
        = (t.text ++ ' ' :: a ++ ' ' :: a ++ [' ']) ++ a by simp,
      getLast?_append_right _ _ hane] at hch
    exact haws ch (List.mem_of_mem_getLast? hch)

theorem conll_line_ne_nil (t : Token) (a : Str) (htne : t.text ≠ []) :
    conll_line t a ≠ [] := by
  unfold conll_line
  simp [htne]

theorem no_ws_no_space {w : Str} (hws : ∀ ch ∈ w, ¬ch.isWhitespace) :
    ∀ ch ∈ w, ch ≠ ' ' := by
  intro ch hch he
  exact hws ch hch (by rw [he]; decide)

theorem conll_line_split (t : Token) (a : Str)
    (htne : t.text ≠ []) (htws : ∀ ch ∈ t.text, ¬ch.isWhitespace)
    (hane : a ≠ []) (haws : ∀ ch ∈ a, ¬ch.isWhitespace) :
    splitOnChar ' ' (conll_line t a) = [t.text, a, a, a] := by
  unfold conll_line
  rw [show t.text ++ ' ' :: a ++ ' ' :: a ++ ' ' :: a
      = t.text ++ ' ' :: (a ++ ' ' :: (a ++ ' ' :: a)) by simp,
    splitOnChar_append_sep ' ' t.text _ (no_ws_no_space htws),
    splitOnChar_append_sep ' ' a _ (no_ws_no_space haws),
    splitOnChar_append_sep ' ' a _ (no_ws_no_space haws),
    splitOnChar_no_sep ' ' a (no_ws_no_space haws)]

theorem merge_line_conll (t : Token) (a b c : Str)
    (htne : t.text ≠ []) (htws : ∀ ch ∈ t.text, ¬ch.isWhitespace)
    (hane : a ≠ []) (haws : ∀ ch ∈ a, ¬ch.isWhitespace)
    (hbne : b ≠ []) (hbws : ∀ ch ∈ b, ¬ch.isWhitespace)
    (hcne : c ≠ []) (hcws : ∀ ch ∈ c, ¬ch.isWhitespace) :
    merge_line (conll_line t a) (conll_line t b) (conll_line t c)
      = Except.ok (t.text ++ ' ' :: a ++ ' ' :: b ++ ' ' :: c) := by
  unfold merge_line
  rw [if_pos (show pyStrip (conll_line t a) ≠ [] by
    rw [conll_line_strip t a htne htws hane haws]
    exact conll_line_ne_nil t a htne)]
  rw [conll_line_strip t a htne htws hane haws,
    conll_line_strip t b htne htws hbne hbws,
    conll_line_strip t c htne htws hcne hcws,
    conll_line_split t a htne htws hane haws,
    conll_line_split t b htne htws hbne hbws,
    conll_line_split t c htne htws hcne hcws]

theorem merge_files_bilou (doc : List Token) :
    ∀ (tT tP tM : List Str),
      (∀ t ∈ doc, t.text ≠ [] ∧ ∀ ch ∈ t.text, ¬ch.isWhitespace) →
      (∀ tg ∈ tT, tg ≠ [] ∧ ∀ ch ∈ tg, ¬ch.isWhitespace) →
      (∀ tg ∈ tP, tg ≠ [] ∧ ∀ ch ∈ tg, ¬ch.isWhitespace) →
      (∀ tg ∈ tM, tg ≠ [] ∧ ∀ ch ∈ tg, ¬ch.isWhitespace) →
      merge_files ((doc.zip tT).map (fun p => conll_line p.1 p.2))
          ((doc.zip tP).map (fun p => conll_line p.1 p.2))
          ((doc.zip tM).map (fun p => conll_line p.1 p.2))
        = Except.ok (merged_conll_lines doc tT tP tM) := by
  induction doc with
  | nil => intro tT tP tM _ _ _ _; rfl
  | cons t doc ih =>
    intro tT tP tM hdoc hT hP hM
    cases tT with
    | nil => rfl
    | cons a tT =>
      cases tP with
      | nil => rfl
      | cons b tP =>
        cases tM with
        | nil => rfl
        | cons c tM =>
          rw [List.zip_cons_cons, List.zip_cons_cons, List.zip_cons_cons,
            List.map_cons, List.map_cons, List.map_cons]
          unfold merge_files
          rw [merge_line_conll t a b c (hdoc t (by simp)).1 (hdoc t (by simp)).2
              (hT a (by simp)).1 (hT a (by simp)).2
              (hP b (by simp)).1 (hP b (by simp)).2
              (hM c (by simp)).1 (hM c (by simp)).2,
            ih tT tP tM (fun t' ht' => hdoc t' (by simp [ht']))
              (fun tg htg => hT tg (by simp [htg]))
              (fun tg htg => hP tg (by simp [htg]))
              (fun tg htg => hM tg (by simp [htg]))]
          rfl

theorem conll_line_columns_merged (t : Token) (a b c : Str)
    (htne : t.text ≠ []) (htws : ∀ ch ∈ t.text, ¬ch.isWhitespace)
    (hane : a ≠ []) (haws : ∀ ch ∈ a, ¬ch.isWhitespace)
    (hbne : b ≠ []) (hbws : ∀ ch ∈ b, ¬ch.isWhitespace)
    (hcne : c ≠ []) (hcws : ∀ ch ∈ c, ¬ch.isWhitespace) :
    conll_line_columns (t.text ++ ' ' :: a ++ ' ' :: b ++ ' ' :: c)
      = Except.ok (t.text, a, b, c) := by
  unfold conll_line_columns
  rw [show t.text ++ ' ' :: a ++ ' ' :: b ++ ' ' :: c
      = t.text ++ ' ' :: (a ++ ' ' :: (b ++ ' ' :: c)) by simp,
    wsSplit_append_space t.text _ htne htws,
    wsSplit_append_space a _ hane haws,
    wsSplit_append_space b _ hbne hbws,
    wsSplit_nonws c hcne hcws]

theorem conll_columns_merged (doc : List Token) :
    ∀ (tT tP tM : List Str),
      tT.length = doc.length → tP.length = doc.length → tM.length = doc.length →
      (∀ t ∈ doc, t.text ≠ [] ∧ ∀ ch ∈ t.text, ¬ch.isWhitespace) →
      (∀ tg ∈ tT, tg ≠ [] ∧ ∀ ch ∈ tg, ¬ch.isWhitespace) →
      (∀ tg ∈ tP, tg ≠ [] ∧ ∀ ch ∈ tg, ¬ch.isWhitespace) →
      (∀ tg ∈ tM, tg ≠ [] ∧ ∀ ch ∈ tg, ¬ch.isWhitespace) →
      conll_columns (merged_conll_lines doc tT tP tM)
        = Except.ok (doc.map Token.text, tT, tP, tM) := by
  induction doc with
  | nil =>
    intro tT tP tM h1 h2 h3 _ _ _ _
    rw [List.length_nil] at h1 h2 h3
    rw [List.eq_nil_of_length_eq_zero h1, List.eq_nil_of_length_eq_zero h2,
      List.eq_nil_of_length_eq_zero h3]
    rfl
  | cons t doc ih =>
    intro tT tP tM h1 h2 h3 hdoc hT hP hM
    cases tT with
    | nil => simp at h1
    | cons a tT =>
      cases tP with
      | nil => simp at h2
      | cons b tP =>
        cases tM with
        | nil => simp at h3
        | cons c tM =>
          show conll_columns ((t.text ++ ' ' :: a ++ ' ' :: b ++ ' ' :: c)
            :: merged_conll_lines doc tT tP tM) = _
          unfold conll_columns
          rw [conll_line_columns_merged t a b c (hdoc t (by simp)).1 (hdoc t (by simp)).2
              (hT a (by simp)).1 (hT a (by simp)).2
              (hP b (by simp)).1 (hP b (by simp)).2
              (hM c (by simp)).1 (hM c (by simp)).2,
            except_bind_ok,
            ih tT tP tM (by simpa using h1) (by simpa using h2) (by simpa using h3)
              (fun t' ht' => hdoc t' (by simp [ht']))
              (fun tg htg => hT tg (by simp [htg]))
              (fun tg htg => hP tg (by simp [htg]))
              (fun tg htg => hM tg (by simp [htg])),
            except_bind_ok]
          rfl

/-! ### The tags-to-entities scan on a painted tag stream -/

theorem drop_eq_cons_of_get? {α : Type} :
    ∀ (l : List α) (p : Nat) (a : α), l.get? p = some a → l.drop p = a :: l.drop (p + 1) := by
  intro l
  induction l with
  | nil => intro p a h; cases h
  | cons x xs ih =>
    intro p a h
    cases p with
    | zero =>
      injection h with h1
      rw [h1]
      rfl
    | succ q =>
      exact ih q a (by simpa using h)

theorem coversB_of_range {doc : List Token} {ent : Nat × Nat × Str} {i j k : Nat}
    (hs : dictGet Token.idx doc ent.1 = some i) (he : dictGet Token.tokEnd doc ent.2.1 = some j)
    (h : k = i ∨ k = j ∨ (i < k ∧ k < j)) : coversB doc ent k = true := by
  unfold coversB
  rw [hs, he]
  exact decide_eq_true h

theorem range_le {doc : List Token} {anns : List Annotation} {entity : Str}
    (hdoc : WfDoc doc) (hanns : WfAnns doc anns entity) {ent : Nat × Nat × Str}
    (hment : ent ∈ annotation_spans anns) {i j : Nat}
    (hs : dictGet Token.idx doc ent.1 = some i)
    (he : dictGet Token.tokEnd doc ent.2.1 = some j) : i ≤ j := by
  obtain ⟨a, ha, rfl⟩ := List.mem_map.mp hment
  obtain ⟨i', j', ti', tj', hij', hgi', hgj', _, _, hs', he'⟩ :=
    aligned_range hdoc ((hanns.1 a ha).2.2)
  have h1 : i = i' := Option.some.inj (hs.symm.trans hs')
  have h2 : j = j' := Option.some.inj (he.symm.trans he')
  omega

theorem spans_tag {doc : List Token} {anns : List Annotation} {entity : Str}
    (hanns : WfAnns doc anns entity) {y : Nat × Nat × Str}
    (hy : y ∈ annotation_spans anns) : y.2.2 = entity := by
  obtain ⟨a, ha, rfl⟩ := List.mem_map.mp hy
  exact (hanns.1 a ha).1

theorem cons_cons_ne_single (c d e : Char) (r : Str) : c :: d :: r ≠ [e] := by
  intro h
  have := congrArg List.length h
  simp at this

theorem startsWith_cons (c d : Char) (r : Str) : pyStartsWith (c :: r) [d] = (d == c) := by
  simp [pyStartsWith, List.isPrefixOf]

theorem tags_to_entities_go_spec (doc : List Token) (anns : List Annotation) (entity : Str)
    (hdoc : WfDoc doc) (hanns : WfAnns doc anns entity) :
    ∀ (n p : Nat) (st : Option Nat), doc.length - p = n → ScanInv doc anns st p →
      ∃ l, tags_to_entities_go p st ((entity_bilou_tags doc anns entity).drop p)
          = Except.ok l ∧ ∀ x, x ∈ l ↔ ScanEmits doc anns st p x := by
  intro n
  induction n with
  | zero =>
    intro p st hn hinv
    have hlen : (entity_bilou_tags doc anns entity).length ≤ p := by
      rw [entity_bilou_tags_length]
      omega
    rw [List.drop_eq_nil_of_le hlen]
    refine ⟨[], rfl, ?_⟩
    intro x
    simp only [List.not_mem_nil, false_iff, ScanEmits]
    rintro (⟨ent, hment, i, j, hr, hpi, hx⟩ | ⟨i0, hst, ent, hment, j0, hr, hlt, hle, hx⟩)
    · obtain ⟨ti, hgi, _⟩ := dictGet_some_spec _ doc _ _ hr.1
      obtain ⟨hlt', _⟩ := List.get?_eq_some.mp hgi
      omega
    · obtain ⟨tj, hgj, _⟩ := dictGet_some_spec _ doc _ _ hr.2
      obtain ⟨hlt', _⟩ := List.get?_eq_some.mp hgj
      omega
  | succ n ih =>
    intro p st hn hinv
    have hplen : p < doc.length := by omega
    have hget := entity_bilou_tags_pattern doc anns entity hdoc hanns p hplen
    rw [drop_eq_cons_of_get? _ p _ hget]
    cases hfind : (annotation_spans anns).find? (fun ent => coversB doc ent p) with
    | none =>
      have hnone : ∀ e' ∈ annotation_spans anns, coversB doc e' p = false := by
        intro e' he'
        have := List.find?_eq_none.mp hfind e' he'
        simpa using this
      have htag : tagPattern doc anns entity p = 'O' :: '-' :: entity := by
        unfold tagPattern
        rw [hfind]
      rw [htag]
      cases st with
      | some i0 =>
        exfalso
        simp only [ScanInv] at hinv
        obtain ⟨ent0, hm0, j0, hr0, hlt0, hle0⟩ := hinv
        have hc0 : coversB doc ent0 p = true := coversB_of_range hr0.1 hr0.2 (by omega)
        rw [hnone ent0 hm0] at hc0
        cases hc0
      | none =>
        have hinv' : ScanInv doc anns none (p + 1) := by
          simp only [ScanInv]
          intro ent' hm' i' j' hr' hcontra
          obtain ⟨h1, h2⟩ := hcontra
          have hc' : coversB doc ent' p = true := coversB_of_range hr'.1 hr'.2 (by omega)
          rw [hnone ent' hm'] at hc'
          cases hc'
        obtain ⟨l, hgo, hmem⟩ := ih (p + 1) none (by omega) hinv'
        refine ⟨l, ?_, ?_⟩
        · unfold tags_to_entities_go
          rw [if_pos (by rw [startsWith_cons]; decide)]
          exact hgo
        · intro x
          rw [hmem x]
          simp only [ScanEmits]
          constructor
          · rintro (⟨ent', hm', i', j', hr', hpi', hx'⟩ | ⟨i0, hst, _⟩)
            · exact Or.inl ⟨ent', hm', i', j', hr', by omega, hx'⟩
            · cases hst
          · rintro (⟨ent', hm', i', j', hr', hpi', hx'⟩ | ⟨i0, hst, _⟩)
            · have hne : i' ≠ p := by
                intro hip
                have hc' : coversB doc ent' p = true :=
                  coversB_of_range hr'.1 hr'.2 (by omega)
                rw [hnone ent' hm'] at hc'
                cases hc'
              exact Or.inl ⟨ent', hm', i', j', hr', by omega, hx'⟩
            · cases hst
    | some ent =>
      have hment : ent ∈ annotation_spans anns := List.mem_of_find?_eq_some hfind
      have hcov : coversB doc ent p = true := by
        have := List.find?_some hfind
        simpa using this
      obtain ⟨i, j, hs, he, hp⟩ := coversB_true_spec hcov
      have hij : i ≤ j := range_le hdoc hanns hment hs he
      have huniq : ∀ e' ∈ annotation_spans anns, coversB doc e' p = true → e' = ent :=
        fun e' he' hc' => covering_unique hdoc hanns he' hment hc' hcov
      have hstart_eq : ∀ ent' ∈ annotation_spans anns, ∀ i' j', RangeOf doc ent' i' j' →
          i' = p → ent' = ent ∧ p = i ∧ j' = j := by
        intro ent' hment' i' j' hr' hi'
        subst hi'
        have hc' : coversB doc ent' i' = true := coversB_of_range hr'.1 hr'.2 (Or.inl rfl)
        have he' : ent' = ent := huniq ent' hment' hc'
        subst he'
        exact ⟨rfl, (Option.some.inj (hs.symm.trans hr'.1)).symm.symm ▸
          (Option.some.inj (hr'.1.symm.trans hs)).symm,
          Option.some.inj (hr'.2.symm.trans he)⟩
      have hmid_eq : ∀ ent' ∈ annotation_spans anns, ∀ i0 j0, RangeOf doc ent' i0 j0 →
          i0 < p → p ≤ j0 → ent' = ent ∧ i0 = i ∧ j0 = j := by
        intro ent' hment' i0 j0 hr' hlt hle
        have hc' : coversB doc ent' p = true := coversB_of_range hr'.1 hr'.2 (by omega)
        have he' : ent' = ent := huniq ent' hment' hc'
        subst he'
        exact ⟨rfl, Option.some.inj (hr'.1.symm.trans hs),
          Option.some.inj (hr'.2.symm.trans he)⟩
      by_cases hij' : i = j
      · -- the span is a single token: the tag at p is `U-`
        have hpA : p = i := by omega
        have htag : tagPattern doc anns entity p = 'U' :: '-' :: ent.2.2 := by
          unfold tagPattern
          rw [hfind]
          dsimp only
          rw [hs, he]
          dsimp only
          unfold roleTag
          rw [if_pos hij']
        rw [htag]
        cases st with
        | some i0 =>
          exfalso
          simp only [ScanInv] at hinv
          obtain ⟨ent0, hm0, j0, hr0, hlt0, hle0⟩ := hinv
          obtain ⟨he0, hi0, hj0⟩ := hmid_eq ent0 hm0 i0 j0 hr0 hlt0 hle0
          omega
        | none =>
          have hinv' : ScanInv doc anns none (p + 1) := by
            simp only [ScanInv]
            intro ent' hm' i' j' hr' hcontra
            obtain ⟨h1, h2⟩ := hcontra
            have hc' : coversB doc ent' p = true := coversB_of_range hr'.1 hr'.2 (by omega)
            have he' : ent' = ent := huniq ent' hm' hc'
            subst he'
            have hj' : j' = j := Option.some.inj (hr'.2.symm.trans he)
            omega
          obtain ⟨l, hgo, hmem⟩ := ih (p + 1) none (by omega) hinv'
          refine ⟨(ent.2.2, p, p) :: l, ?_, ?_⟩
          · unfold tags_to_entities_go
            rw [if_neg (by rw [startsWith_cons]; decide),
              if_neg (cons_cons_ne_single 'U' '-' '-' ent.2.2),
              if_neg (by rw [startsWith_cons]; decide),
              if_pos (by rw [startsWith_cons]; decide),
              hgo]
            rfl
          · intro x
            simp only [List.mem_cons, hmem x, ScanEmits]
            constructor
            · rintro (rfl | (⟨ent', hm', i', j', hr', hpi', hx'⟩ | ⟨i0, hst, _⟩))
              · refine Or.inl ⟨ent, hment, i, j, ⟨hs, he⟩, by omega, ?_⟩
                rw [hpA, hij']
              · exact Or.inl ⟨ent', hm', i', j', hr', by omega, hx'⟩
              · cases hst
            · rintro (⟨ent', hm', i', j', hr', hpi', hx'⟩ | ⟨i0, hst, _⟩)
              · by_cases hi'p : i' = p
                · obtain ⟨he', hpi2, hj'⟩ := hstart_eq ent' hm' i' j' hr' hi'p
                  refine Or.inl ?_
                  rw [hx', he', hi'p, hj', ← hij', ← hpi2]
                · exact Or.inr (Or.inl ⟨ent', hm', i', j', hr', by omega, hx'⟩)
              · cases hst
      · -- multi-token span
        have hijlt : i < j := by omega
        rcases hp with hpB | hpC | hpD
        · -- p = i: the tag is `B-`, an entity opens
          have htag : tagPattern doc anns entity p = 'B' :: '-' :: ent.2.2 := by
            unfold tagPattern
            rw [hfind]
            dsimp only
            rw [hs, he]
            dsimp only
            unfold roleTag
            rw [if_neg hij', if_pos hpB]
          rw [htag]
          cases st with
          | some i0 =>
            exfalso
            simp only [ScanInv] at hinv
            obtain ⟨ent0, hm0, j0, hr0, hlt0, hle0⟩ := hinv
            obtain ⟨he0, hi0, hj0⟩ := hmid_eq ent0 hm0 i0 j0 hr0 hlt0 hle0
            omega
          | none =>
            have hinv' : ScanInv doc anns (some p) (p + 1) := by
              simp only [ScanInv]
              refine ⟨ent, hment, j, ⟨?_, he⟩, by omega, by omega⟩
              rw [hpB]
              exact hs
            obtain ⟨l, hgo, hmem⟩ := ih (p + 1) (some p) (by omega) hinv'
            refine ⟨l, ?_, ?_⟩
            · unfold tags_to_entities_go
              rw [if_neg (by rw [startsWith_cons]; decide),
                if_neg (cons_cons_ne_single 'B' '-' '-' ent.2.2),
                if_neg (by rw [startsWith_cons]; decide),
                if_neg (by rw [startsWith_cons]; decide),
                if_pos (by rw [startsWith_cons]; decide)]
              exact hgo
            · intro x
              rw [hmem x]
              simp only [ScanEmits]
              constructor
              · rintro (⟨ent', hm', i', j', hr', hpi', hx'⟩ |
                  ⟨i0, hst, ent', hm', j0, hr', hlt', hle', hx'⟩)
                · exact Or.inl ⟨ent', hm', i', j', hr', by omega, hx'⟩
                · have hi0 : i0 = p := (Option.some.inj hst).symm
                  subst hi0
                  exact Or.inl ⟨ent', hm', i0, j0, hr', by omega, hx'⟩
              · rintro (⟨ent', hm', i', j', hr', hpi', hx'⟩ | ⟨i0, hst, _⟩)
                · by_cases hi'p : i' = p
                  · obtain ⟨he', hpi2, hj'⟩ := hstart_eq ent' hm' i' j' hr' hi'p
                    refine Or.inr ⟨p, rfl, ent, hment, j, ⟨?_, he⟩, by omega, by omega, ?_⟩
                    · rw [hpB]
                      exact hs
                    · rw [hx', he', hi'p, hj']
                  · exact Or.inl ⟨ent', hm', i', j', hr', by omega, hx'⟩
                · cases hst
        · -- p = j: the tag is `L-`, the open entity closes
          have htag : tagPattern doc anns entity p = 'L' :: '-' :: ent.2.2 := by
            unfold tagPattern
            rw [hfind]
            dsimp only
            rw [hs, he]
            dsimp only
            unfold roleTag
            rw [if_neg hij', if_neg (by omega : ¬(p = i)), if_pos hpC]
          rw [htag]
          cases st with
          | none =>
            exfalso
            simp only [ScanInv] at hinv
            exact hinv ent hment i j ⟨hs, he⟩ (by omega)
          | some i0 =>
            simp only [ScanInv] at hinv
            obtain ⟨ent0, hm0, j0, hr0, hlt0, hle0⟩ := hinv
            obtain ⟨he0, hi0, hj0⟩ := hmid_eq ent0 hm0 i0 j0 hr0 hlt0 hle0
            have hinv' : ScanInv doc anns none (p + 1) := by
              simp only [ScanInv]
              intro ent' hm' i' j' hr' hcontra
              obtain ⟨h1, h2⟩ := hcontra
              have hc' : coversB doc ent' p = true := coversB_of_range hr'.1 hr'.2 (by omega)
              have he' : ent' = ent := huniq ent' hm' hc'
              subst he'
              have hj' : j' = j := Option.some.inj (hr'.2.symm.trans he)
              omega
            obtain ⟨l, hgo, hmem⟩ := ih (p + 1) none (by omega) hinv'
            refine ⟨(ent.2.2, i0, p) :: l, ?_, ?_⟩
            · unfold tags_to_entities_go
              rw [if_neg (by rw [startsWith_cons]; decide),
                if_neg (cons_cons_ne_single 'L' '-' '-' ent.2.2),
                if_neg (by rw [startsWith_cons]; decide),
                if_neg (by rw [startsWith_cons]; decide),
                if_neg (by rw [startsWith_cons]; decide),
                if_pos (by rw [startsWith_cons]; decide),
                hgo]
              rfl
            · intro x
              simp only [List.mem_cons, hmem x, ScanEmits]
              constructor
              · rintro (rfl | (⟨ent', hm', i', j', hr', hpi', hx'⟩ | ⟨i0', hst', _⟩))
                · refine Or.inr ⟨i0, rfl, ent, hment, p, ⟨?_, ?_⟩, by omega, by omega, rfl⟩
                  · rw [hi0]
                    exact hs
                  · rw [hpC]
                    exact he
                · exact Or.inl ⟨ent', hm', i', j', hr', by omega, hx'⟩
                · cases hst'
              · rintro (⟨ent', hm', i', j', hr', hpi', hx'⟩ |
                  ⟨i0', hst', ent', hm', j0', hr', hlt', hle', hx'⟩)
                · have hne : i' ≠ p := by
                    intro hip
                    obtain ⟨he', hpi2, hj'2⟩ := hstart_eq ent' hm' i' j' hr' hip
                    omega
                  exact Or.inr (Or.inl ⟨ent', hm', i', j', hr', by omega, hx'⟩)
                · have hi0' : i0' = i0 := Option.some.inj hst'.symm
                  subst hi0'
                  obtain ⟨he', hii, hjj⟩ := hmid_eq ent' hm' i0' j0' hr' hlt' hle'
                  refine Or.inl ?_
                  rw [hx', he', hjj, ← hpC]
        · -- i < p < j: the tag is `I-`, the entity stays open
          have htag : tagPattern doc anns entity p = 'I' :: '-' :: ent.2.2 := by
            unfold tagPattern
            rw [hfind]
            dsimp only
            rw [hs, he]
            dsimp only
            unfold roleTag
            rw [if_neg hij', if_neg (by omega : ¬(p = i)), if_neg (by omega : ¬(p = j))]
          rw [htag]
          cases st with
          | none =>
            exfalso
            simp only [ScanInv] at hinv
            exact hinv ent hment i j ⟨hs, he⟩ (by omega)
          | some i0 =>
            simp only [ScanInv] at hinv
            obtain ⟨ent0, hm0, j0, hr0, hlt0, hle0⟩ := hinv
            obtain ⟨he0, hi0, hj0⟩ := hmid_eq ent0 hm0 i0 j0 hr0 hlt0 hle0
            have hinv' : ScanInv doc anns (some i0) (p + 1) := by
              simp only [ScanInv]
              refine ⟨ent, hment, j, ⟨?_, he⟩, by omega, by omega⟩
              rw [hi0]
              exact hs
            obtain ⟨l, hgo, hmem⟩ := ih (p + 1) (some i0) (by omega) hinv'
            refine ⟨l, ?_, ?_⟩
            · unfold tags_to_entities_go
              rw [if_neg (by rw [startsWith_cons]; decide),
                if_neg (cons_cons_ne_single 'I' '-' '-' ent.2.2),
                if_pos (by rw [startsWith_cons]; decide)]
              exact hgo
            · intro x
              rw [hmem x]
              simp only [ScanEmits]
              constructor
              · rintro (⟨ent', hm', i', j', hr', hpi', hx'⟩ |
                  ⟨i0', hst', ent', hm', j0', hr', hlt', hle', hx'⟩)
                · exact Or.inl ⟨ent', hm', i', j', hr', by omega, hx'⟩
                · have hi0' : i0' = i0 := Option.some.inj hst'.symm
                  subst hi0'
                  exact Or.inr ⟨i0', rfl, ent', hm', j0', hr', by omega, by omega, hx'⟩
              · rintro (⟨ent', hm', i', j', hr', hpi', hx'⟩ |
                  ⟨i0', hst', ent', hm', j0', hr', hlt', hle', hx'⟩)
                · have hne : i' ≠ p := by
                    intro hip
                    obtain ⟨he', hpi2, hj'2⟩ := hstart_eq ent' hm' i' j' hr' hip
                    omega
                  exact Or.inl ⟨ent', hm', i', j', hr', by omega, hx'⟩
                · have hi0' : i0' = i0 := Option.some.inj hst'.symm
                  subst hi0'
                  obtain ⟨he', hii, hjj⟩ := hmid_eq ent' hm' i0' j0' hr' hlt' hle'
                  exact Or.inr ⟨i0', rfl, ent', hm', j0', hr', by omega, by omega, hx'⟩

theorem tags_to_entities_bilou (doc : List Token) (anns : List Annotation) (entity : Str)
    (hdoc : WfDoc doc) (hanns : WfAnns doc anns entity) :
    ∃ l, tags_to_entities (entity_bilou_tags doc anns entity) = Except.ok l ∧
      ∀ x, x ∈ l ↔ ∃ ent ∈ annotation_spans anns, ∃ i j,
        RangeOf doc ent i j ∧ x = (ent.2.2, i, j) := by
  have hinv0 : ScanInv doc anns none 0 := by
    simp only [ScanInv]
    intro ent hment i j hr hcontra
    omega
  obtain ⟨l, hgo, hmem⟩ := tags_to_entities_go_spec doc anns entity hdoc hanns
    doc.length 0 none (by omega) hinv0
  refine ⟨l, hgo, ?_⟩
  intro x
  rw [hmem x]
  simp only [ScanEmits]
  constructor
  · rintro (⟨ent, hment, i, j, hr, _, hx⟩ | ⟨i0, hst, _⟩)
    · exact ⟨ent, hment, i, j, hr, hx⟩
    · cases hst
  · rintro ⟨ent, hment, i, j, hr, hx⟩
    exact Or.inl ⟨ent, hment, i, j, hr, by omega, hx⟩

theorem clamped_offset_of_range {doc : List Token} {anns : List Annotation} {entity : Str}
    (hdoc : WfDoc doc) (hanns : WfAnns doc anns entity) {ent : Nat × Nat × Str}
    (hment : ent ∈ annotation_spans anns) {i j : Nat} (hr : RangeOf doc ent i j) :
    ((doc_slice_offsets doc i (j + 1)).1, (doc_slice_offsets doc i (j + 1)).2, ent.2.2)
      = ent := by
  have hij : i ≤ j := range_le hdoc hanns hment hr.1 hr.2
  obtain ⟨ti, hgi, hki⟩ := dictGet_some_spec _ doc _ _ hr.1
  obtain ⟨tj, hgj, hkj⟩ := dictGet_some_spec _ doc _ _ hr.2
  obtain ⟨hilt, _⟩ := List.get?_eq_some.mp hgi
  obtain ⟨hjlt, _⟩ := List.get?_eq_some.mp hgj
  unfold doc_slice_offsets
  rw [show min doc.length i = i by omega]
  rw [show min doc.length (max i (j + 1)) = j + 1 by omega]
  rw [hgi, if_neg (by omega : ¬(j + 1 = 0)), show j + 1 - 1 = j from rfl, hgj]
  dsimp only
  rw [hki, hkj]


theorem entity_char_offsets_ranges (doc : List Token) (anns : List Annotation) (entity : Str)
    (hdoc : WfDoc doc) (hanns : WfAnns doc anns entity) :
    ∀ l : List (Str × Nat × Nat),
      (∀ x ∈ l, ∃ ent ∈ annotation_spans anns, ∃ i j, RangeOf doc ent i j ∧ x = (ent.2.2, i, j)) →
      (∀ y ∈ entity_char_offsets doc l, y ∈ annotation_spans anns) ∧
      (∀ ent ∈ annotation_spans anns, ∀ i j, RangeOf doc ent i j →
        (ent.2.2, i, j) ∈ l → ent ∈ entity_char_offsets doc l) := by
  intro l hl
  constructor
  · intro y hy
    obtain ⟨x, hx, rfl⟩ := List.mem_map.mp hy
    obtain ⟨ent0, hm0, i0, j0, hr0, rfl⟩ := hl x hx
    have hval := clamped_offset_of_range hdoc hanns hm0 hr0
    dsimp only
    rw [hval]
    exact hm0
  · intro ent hment i j hr hmem
    have hval := clamped_offset_of_range hdoc hanns hment hr
    refine List.mem_map.mpr ⟨(ent.2.2, i, j), hmem, ?_⟩
    dsimp only
    exact hval

theorem offsets_from_biluo_spans (doc : List Token) (anns : List Annotation) (entity : Str)
    (hdoc : WfDoc doc) (hanns : WfAnns doc anns entity) :
    ∃ offs, offsets_from_biluo_tags doc (entity_bilou_tags doc anns entity) = Except.ok offs ∧
      ∀ y, y ∈ offs ↔ y ∈ annotation_spans anns := by
  obtain ⟨l, hok, hiff⟩ := tags_to_entities_bilou doc anns entity hdoc hanns
  obtain ⟨hsub, hsup⟩ :=
    entity_char_offsets_ranges doc anns entity hdoc hanns l (fun x hx => (hiff x).mp hx)
  refine ⟨entity_char_offsets doc l, ?_, fun y => ⟨hsub y, fun hy => ?_⟩⟩
  · unfold offsets_from_biluo_tags
    rw [hok]
    rfl
  · obtain ⟨a, ha, rfl⟩ := List.mem_map.mp hy
    obtain ⟨i, j, ti, tj, hij, hgi, hgj, hidx, hend, hs, he⟩ :=
      aligned_range hdoc ((hanns.1 a ha).2.2)
    have hmem' : ((a.start, a.stop, a.tag).2.2, i, j) ∈ l :=
      (hiff _).mpr ⟨(a.start, a.stop, a.tag), hy, i, j, ⟨hs, he⟩, rfl⟩
    exact hsup _ hy i j ⟨hs, he⟩ hmem'

/-- A span of the annotation list aligns with token boundaries, so
`char_span` finds it. -/
theorem spans_char_span_aligned {doc : List Token} {anns : List Annotation} {entity : Str}
    (hdoc : WfDoc doc) (hanns : WfAnns doc anns entity) {off : Nat × Nat × Str}
    (hoff : off ∈ annotation_spans anns) : char_span doc off.1 off.2.1 ≠ none := by
  obtain ⟨a, ha, rfl⟩ := List.mem_map.mp hoff
  obtain ⟨i, j, ti, tj, hij, hgi, hgj, hidx, hend, _, _⟩ :=
    aligned_range hdoc ((hanns.1 a ha).2.2)
  exact char_span_ne_none doc _ _ ⟨ti, List.get?_mem hgi, hidx⟩ ⟨tj, List.get?_mem hgj, hend⟩

/-! ### Shape of the painted tag stream and the rendered annotation lines -/

theorem tagPattern_shape (doc : List Token) (anns : List Annotation) (entity : Str)
    (hanns : WfAnns doc anns entity) (k : Nat) :
    ∃ r, (r = 'O' ∨ r = 'U' ∨ r = 'B' ∨ r = 'L' ∨ r = 'I') ∧
      tagPattern doc anns entity k = r :: '-' :: entity := by
  unfold tagPattern
  cases hfind : (annotation_spans anns).find? (fun ent => coversB doc ent k) with
  | none => exact ⟨'O', by decide, rfl⟩
  | some ent =>
    have htg : ent.2.2 = entity := spans_tag hanns (List.mem_of_find?_eq_some hfind)
    dsimp only
    cases h1 : dictGet Token.idx doc ent.1 with
    | none => exact ⟨'O', by decide, rfl⟩
    | some i =>
      cases h2 : dictGet Token.tokEnd doc ent.2.1 with
      | none => exact ⟨'O', by decide, rfl⟩
      | some j =>
        dsimp only
        unfold roleTag
        rw [htg]
        split_ifs
        · exact ⟨'U', by decide, rfl⟩
        · exact ⟨'B', by decide, rfl⟩
        · exact ⟨'L', by decide, rfl⟩
        · exact ⟨'I', by decide, rfl⟩

theorem entity_bilou_tags_props (doc : List Token) (anns : List Annotation) (entity : Str)
    (hdoc : WfDoc doc) (hanns : WfAnns doc anns entity)
    (hent : ∀ c ∈ entity, ¬c.isWhitespace) :
    ∀ tg ∈ entity_bilou_tags doc anns entity, tg ≠ [] ∧ ∀ c ∈ tg, ¬c.isWhitespace := by
  intro tg htg
  obtain ⟨k, hk⟩ := List.mem_iff_get?.mp htg
  have hklen : k < doc.length := by
    obtain ⟨hlt, _⟩ := List.get?_eq_some.mp hk
    rw [entity_bilou_tags_length] at hlt
    exact hlt
  have hpat := entity_bilou_tags_pattern doc anns entity hdoc hanns k hklen
  rw [hk] at hpat
  have htg' : tg = tagPattern doc anns entity k := Option.some.inj hpat
  obtain ⟨r, hr, hform⟩ := tagPattern_shape doc anns entity hanns k
  rw [hform] at htg'
  subst htg'
  refine ⟨by simp, ?_⟩
  intro c hc
  rcases List.mem_cons.mp hc with rfl | hc'
  · rcases hr with rfl | rfl | rfl | rfl | rfl <;> decide
  · rcases List.mem_cons.mp hc' with rfl | hc''
    · decide
    · exact hent c hc''

theorem bilou_lines_no_space (doc : List Token) (anns : List Annotation) (entity : Str)
    (hns : ∀ t ∈ doc, t.is_space = false) :
    bilou_lines_for_entity doc anns entity
      = (doc.zip (entity_bilou_tags doc anns entity)).map (fun p => conll_line p.1 p.2) := by
  unfold bilou_lines_for_entity
  congr 1
  apply List.filter_eq_self.mpr
  intro p hp
  have hmem := List.of_mem_zip hp
  simp [hns p.1 hmem.1]

theorem dropWhile_append_singleton {α : Type} (p : α → Bool) (a : α) (ha : p a = false) :
    ∀ l : List α, ∃ l', (l ++ [a]).dropWhile p = l' ++ [a] := by
  intro l
  induction l with
  | nil =>
    refine ⟨[], ?_⟩
    simp [List.dropWhile_cons, ha]
  | cons c l ih =>
    by_cases hc : p c = true
    · obtain ⟨l', hl'⟩ := ih
      refine ⟨l', ?_⟩
      rw [List.cons_append, List.dropWhile_cons]
      simp [hc, hl']
    · refine ⟨c :: l, ?_⟩
      rw [List.cons_append, List.dropWhile_cons]
      simp [hc]

theorem pyStrip_startsT (rest : Str) : pyStartsWith (pyStrip ('T' :: rest)) ['T'] = true := by
  unfold pyStrip
  rw [List.dropWhile_cons]
  rw [if_neg (by decide : ¬(('T').isWhitespace = true))]
  rw [List.reverse_cons]
  obtain ⟨l', hl'⟩ := dropWhile_append_singleton Char.isWhitespace 'T' (by decide) rest.reverse
  rw [hl', List.reverse_append]
  simp [pyStartsWith, List.isPrefixOf]

theorem sliceText_subset (text : Str) (s e : Nat) : ∀ c ∈ sliceText text s e, c ∈ text := by
  intro c hc
  unfold sliceText at hc
  exact List.take_subset e text (List.drop_subset s (text.take e) hc)

theorem ann_line_triple_render (idx s e : Nat) (tag_name surface : Str)
    (hne : tag_name ≠ []) (hws : ∀ c ∈ tag_name, ¬c.isWhitespace)
    (hsurf : ∀ c ∈ surface, c ≠ '\t') :
    ann_line_triple ('T' :: natToStr idx ++ '\t' :: tag_name ++ ' ' :: natToStr s
        ++ ' ' :: natToStr e ++ '\t' :: surface) = some (s, e, tag_name) := by
  have htagtab : ∀ c ∈ tag_name, c ≠ '\t' := fun c hc hce => hws c hc (by rw [hce]; decide)
  have hTtab : ∀ c ∈ ('T' :: natToStr idx), c ≠ '\t' := by
    intro c hc
    rcases List.mem_cons.mp hc with rfl | hc'
    · decide
    · exact natToStr_no_tab idx c hc'
  have hmidtab : ∀ c ∈ (tag_name ++ ' ' :: natToStr s ++ ' ' :: natToStr e), c ≠ '\t' := by
    intro c hc
    simp only [List.mem_append, List.mem_cons] at hc
    rcases hc with (hc | rfl | hc) | rfl | hc
    · exact htagtab c hc
    · decide
    · exact natToStr_no_tab s c hc
    · decide
    · exact natToStr_no_tab e c hc
  have hsplit : splitOnChar '\t' ('T' :: natToStr idx ++ '\t' :: tag_name ++ ' ' :: natToStr s
        ++ ' ' :: natToStr e ++ '\t' :: surface)
      = [('T' :: natToStr idx), (tag_name ++ ' ' :: natToStr s ++ ' ' :: natToStr e), surface] := by
    rw [show ('T' :: natToStr idx ++ '\t' :: tag_name ++ ' ' :: natToStr s
          ++ ' ' :: natToStr e ++ '\t' :: surface)
        = ('T' :: natToStr idx) ++ '\t' :: ((tag_name ++ ' ' :: natToStr s ++ ' ' :: natToStr e)
            ++ '\t' :: surface) by simp]
    rw [splitOnChar_append_sep '\t' _ _ hTtab,
      splitOnChar_append_sep '\t' _ _ hmidtab,
      splitOnChar_no_sep '\t' surface hsurf]
  have hstrip : pyStartsWith (pyStrip ('T' :: natToStr idx ++ '\t' :: tag_name
        ++ ' ' :: natToStr s ++ ' ' :: natToStr e ++ '\t' :: surface)) ['T'] = true := by
    rw [show ('T' :: natToStr idx ++ '\t' :: tag_name ++ ' ' :: natToStr s
          ++ ' ' :: natToStr e ++ '\t' :: surface)
        = 'T' :: (natToStr idx ++ '\t' :: tag_name ++ ' ' :: natToStr s
          ++ ' ' :: natToStr e ++ '\t' :: surface) by simp]
    exact pyStrip_startsT _
  unfold ann_line_triple
  rw [if_pos (And.intro hstrip (by rw [hsplit]; rfl))]
  rw [hsplit]
  dsimp only
  rw [show (tag_name ++ ' ' :: natToStr s ++ ' ' :: natToStr e)
      = tag_name ++ ' ' :: (natToStr s ++ ' ' :: natToStr e) by simp]
  rw [wsSplit_append_space tag_name _ hne hws,
    wsSplit_append_space (natToStr s) _ (natToStr_ne_nil s) (natToStr_no_ws s),
    wsSplit_nonws (natToStr e) (natToStr_ne_nil e) (natToStr_no_ws e)]
  dsimp only
  rw [pyInt_natToStr s, pyInt_natToStr e]

theorem spec_ann_lines_triples (text tag_name : Str)
    (hne : tag_name ≠ []) (hws : ∀ c ∈ tag_name, ¬c.isWhitespace)
    (htext : ∀ c ∈ text, c ≠ '\t') :
    ∀ (offs : List (Nat × Nat × Str)) (base : Nat),
      (spec_ann_lines text tag_name base offs).filterMap ann_line_triple
        = offs.map (fun o => (o.1, o.2.1, tag_name)) := by
  intro offs
  induction offs with
  | nil => intro base; rfl
  | cons off rest ih =>
    intro base
    show ((('T' :: natToStr base ++ '\t' :: tag_name ++ ' ' :: natToStr off.1
          ++ ' ' :: natToStr off.2.1 ++ '\t' :: sliceText text off.1 off.2.1)
        :: spec_ann_lines text tag_name (base + 1) rest).filterMap ann_line_triple) = _
    rw [List.filterMap_cons_some (ann_line_triple_render base off.1 off.2.1 tag_name _
        hne hws (fun c hc => htext c (sliceText_subset text off.1 off.2.1 c hc)))]
    rw [ih (base + 1)]
    rfl

theorem map_offs_spans {doc : List Token} {anns : List Annotation} {entity : Str}
    (hanns : WfAnns doc anns entity) {offs : List (Nat × Nat × Str)}
    (hiff : ∀ y, y ∈ offs ↔ y ∈ annotation_spans anns) (x : Nat × Nat × Str) :
    x ∈ offs.map (fun o => (o.1, o.2.1, entity)) ↔ x ∈ annotation_spans anns := by
  constructor
  · intro hx
    obtain ⟨o, ho, rfl⟩ := List.mem_map.mp hx
    have hos := (hiff o).mp ho
    have ht := spans_tag hanns hos
    have hoe : (o.1, o.2.1, entity) = o := by rw [← ht]
    rw [hoe]
    exact hos
  · intro hx
    have ht := spans_tag hanns hx
    refine List.mem_map.mpr ⟨x, (hiff x).mpr hx, ?_⟩
    rw [← ht]

/-- Claim C1: for every document whose annotation spans are well-formed and
aligned to token boundaries — the tokenization is well-formed, the three
annotation lists carry the canonical tag names on disjoint token-aligned
nonempty spans, and the text has no tab character to corrupt the brat format —
converting the annotations to BILOU tag lines for the three entity types,
merging them line by line, and reconstructing annotation lines with
`write_ann_file_from_conll_file` succeeds and reproduces exactly the original
set of `(start, end, tag)` triples. -/
theorem ann_round_trip_reproduces_triples
    (text : Str) (doc : List Token) (annT annP annM : List Annotation)
    (hdoc : WfDoc doc)
    (hT : WfAnns doc annT taskName) (hP : WfAnns doc annP processName)
    (hM : WfAnns doc annM materialName)
    (htext : ∀ c ∈ text, c ≠ '\t') :
    ∃ merged annLines,
      merge_files (bilou_lines_for_entity doc annT taskName)
          (bilou_lines_for_entity doc annP processName)
          (bilou_lines_for_entity doc annM materialName) = Except.ok merged ∧
      write_ann_file_from_conll_file text doc merged = Except.ok annLines ∧
      ∀ x, x ∈ annLines.filterMap ann_line_triple ↔
        (x ∈ annotation_spans annT ∨ x ∈ annotation_spans annP ∨ x ∈ annotation_spans annM) := by
  have hdocp : ∀ t ∈ doc, t.text ≠ [] ∧ ∀ ch ∈ t.text, ¬ch.isWhitespace :=
    fun t ht => ⟨(hdoc.1 t ht).1, (hdoc.1 t ht).2.1⟩
  have hnosp : ∀ t ∈ doc, t.is_space = false := fun t ht => (hdoc.1 t ht).2.2
  have hTt := entity_bilou_tags_props doc annT taskName hdoc hT (by decide)
  have hPt := entity_bilou_tags_props doc annP processName hdoc hP (by decide)
  have hMt := entity_bilou_tags_props doc annM materialName hdoc hM (by decide)
  have hmerge : merge_files (bilou_lines_for_entity doc annT taskName)
      (bilou_lines_for_entity doc annP processName)
      (bilou_lines_for_entity doc annM materialName)
      = Except.ok (merged_conll_lines doc (entity_bilou_tags doc annT taskName)
          (entity_bilou_tags doc annP processName)
          (entity_bilou_tags doc annM materialName)) := by
    rw [bilou_lines_no_space doc annT taskName hnosp,
      bilou_lines_no_space doc annP processName hnosp,
      bilou_lines_no_space doc annM materialName hnosp]
    exact merge_files_bilou doc _ _ _ hdocp hTt hPt hMt
  have hcols : conll_columns (merged_conll_lines doc (entity_bilou_tags doc annT taskName)
      (entity_bilou_tags doc annP processName) (entity_bilou_tags doc annM materialName))
      = Except.ok (doc.map Token.text, entity_bilou_tags doc annT taskName,
          entity_bilou_tags doc annP processName, entity_bilou_tags doc annM materialName) :=
    conll_columns_merged doc _ _ _ (entity_bilou_tags_length doc annT taskName)
      (entity_bilou_tags_length doc annP processName)
      (entity_bilou_tags_length doc annM materialName) hdocp hTt hPt hMt
  obtain ⟨oT, hoT, hiffT⟩ := offsets_from_biluo_spans doc annT taskName hdoc hT
  obtain ⟨oP, hoP, hiffP⟩ := offsets_from_biluo_spans doc annP processName hdoc hP
  obtain ⟨oM, hoM, hiffM⟩ := offsets_from_biluo_spans doc annM materialName hdoc hM
  refine ⟨_, _, hmerge,
    write_ann_renders text doc _
      (doc.map Token.text, entity_bilou_tags doc annT taskName,
        entity_bilou_tags doc annP processName, entity_bilou_tags doc annM materialName)
      oT oP oM hcols hoT hoP hoM
      (fun off hoff => spans_char_span_aligned hdoc hT ((hiffT off).mp hoff))
      (fun off hoff => spans_char_span_aligned hdoc hP ((hiffP off).mp hoff))
      (fun off hoff => spans_char_span_aligned hdoc hM ((hiffM off).mp hoff)), ?_⟩
  intro x
  rw [List.filterMap_append, List.filterMap_append]
  rw [spec_ann_lines_triples text taskName (by decide) (by decide) htext oT 0,
    spec_ann_lines_triples text processName (by decide) (by decide) htext oP oT.length,
    spec_ann_lines_triples text materialName (by decide) (by decide) htext oM
      (oT.length + oP.length)]
  simp only [List.mem_append]
  rw [map_offs_spans hT hiffT x, map_offs_spans hP hiffP x, map_offs_spans hM hiffM x]
  exact or_assoc

/-- Witness for claim C1: the two-token document `exDoc2` with one Task span
and one Material span; the hypotheses hold by computation and the round trip
reproduces both triples. -/
theorem ann_round_trip_reproduces_triples_witness :
    (WfDoc exDoc2 ∧ WfAnns exDoc2 rtAnnT taskName ∧ WfAnns exDoc2 rtAnnP processName
        ∧ WfAnns exDoc2 rtAnnM materialName ∧ (∀ c ∈ exText2, c ≠ '\t'))
    ∧ ∃ merged annLines,
        merge_files (bilou_lines_for_entity exDoc2 rtAnnT taskName)
            (bilou_lines_for_entity exDoc2 rtAnnP processName)
            (bilou_lines_for_entity exDoc2 rtAnnM materialName) = Except.ok merged ∧
        write_ann_file_from_conll_file exText2 exDoc2 merged = Except.ok annLines ∧
        ∀ x, x ∈ annLines.filterMap ann_line_triple ↔
          (x ∈ annotation_spans rtAnnT ∨ x ∈ annotation_spans rtAnnP
            ∨ x ∈ annotation_spans rtAnnM) :=
  ⟨⟨by decide, by decide, by decide, by decide, by decide⟩,
   ann_round_trip_reproduces_triples exText2 exDoc2 rtAnnT rtAnnP rtAnnM
     (by decide) (by decide) (by decide) (by decide) (by decide)⟩
